import Mathlib

/-!
Verification development for the NIRTorch tracing/interpretation design.

The repository's notebooks document a tracer (`torch_to_nir`) converting a
native module hierarchy into a NIR graph, and an interpreter (`nir_to_torch`)
converting a NIR graph back into a composed callable module.  The library
implementation itself is not part of the repository, so the definitions below
are modelled from the specification and from the concrete execution outputs
recorded in the notebooks.  Signal values are modelled as integers; tensors of
the examples are rank-0 signals, so this keeps the dataflow and state
threading faithful while staying executable.
-/

/-- Signal values flowing through modules and graphs. -/
abbrev Value := Int

/-- Modelled from the spec: primitive native modules with built-in forward
semantics.  `linear` mirrors `torch.nn.Linear` on a scalar signal;
`myLI` mirrors the notebook's `MyLeakyIntegrator` whose forward computes
`x = tau * (v_leak - state + r * x)` and returns `(x, x)`, treating an
absent state as `0`. -/
inductive Prim where
  | linear (w b : Value)
  | myLI (tau r vleak : Value)
deriving DecidableEq

/-- Forward semantics of a primitive: input and optional incoming state to
output and optional outgoing state. -/
def primEval : Prim → Value → Option Value → Value × Option Value
  | .linear w b, x, _ => (w * x + b, none)
  | .myLI tau r vleak, x, s =>
      let v := tau * (vleak - s.getD 0 + r * x)
      (v, some v)

/-- Modelled from the spec: the dataflow of a container module's forward pass.
`arg` is the forward argument, `call c e` invokes the submodule named `c` on
the value of `e`, `add` is the elementwise addition the tracer eliminates,
and `mul` is a multiplication of two traced signals (unsupported by the
tracer). -/
inductive Expr where
  | arg
  | call (c : String) (e : Expr)
  | add (a b : Expr)
  | mul (a b : Expr)

mutual
/-- Modelled from the spec: a native module hierarchy.  A module is either a
primitive with a runtime-type identity (its method resolution order, most
specific type first) or a container with named children and a forward
expression; `argName` is the name of the forward argument, used for the
synthetic input boundary node. -/
inductive NModule where
  | prim (mro : List Nat) (p : Prim)
  | container (mro : List Nat) (argName : String) (children : Children) (fwd : Expr)

/-- Named submodules of a container. -/
inductive Children where
  | nil
  | cons (name : String) (m : NModule) (rest : Children)
end

/-- The runtime-type identity (method resolution order) of a module. -/
def NModule.mroOf : NModule → List Nat
  | .prim mro _ => mro
  | .container mro _ _ _ => mro

/-- The forward-argument name of a module (containers carry it; a bare
primitive defaults to `input`). -/
def NModule.rootArg : NModule → String
  | .prim _ _ => "input"
  | .container _ a _ _ => a

/-- The names of a container's children, in declaration order. -/
def Children.keys : Children → List String
  | .nil => []
  | .cons n _ rest => n :: Children.keys rest

/-- NIR nodes of the model: synthetic input/output boundary nodes, affine
transforms (from `torch.nn.Linear`) and leaky integrators (from
`MyLeakyIntegrator`). -/
inductive Node where
  | input
  | output
  | affine (w b : Value)
  | li (tau r vleak : Value)
deriving DecidableEq

/-- Decidable equality of fallible results, for evaluating the model on
concrete inputs. -/
instance [DecidableEq ε] [DecidableEq α] : DecidableEq (Except ε α)
  | .error e, .error f =>
      if h : e = f then .isTrue (congrArg _ h)
      else .isFalse (fun hc => h (Except.error.inj hc))
  | .error _, .ok _ => .isFalse Except.noConfusion
  | .ok _, .error _ => .isFalse Except.noConfusion
  | .ok a, .ok b =>
      if h : a = b then .isTrue (congrArg _ h)
      else .isFalse (fun hc => h (Except.ok.inj hc))

/-- Association-list lookup used for all keyed collections of the model. -/
def lookupA [DecidableEq κ] : List (κ × β) → κ → Option β
  | [], _ => none
  | (k, v) :: rest, q => if k = q then some v else lookupA rest q

/-- Modelled from the spec: the tracing registry, associating runtime-type
identities with conversion functions from native modules to NIR nodes. -/
structure Registry where
  entries : List (Nat × (NModule → Node))

/-- Modelled from the spec: registry lookup for a module walks the module's
method resolution order from the most specific type outward and returns the
first registered conversion function, so a derived-type entry takes
precedence over a base-type entry. -/
def lookupReg (reg : Registry) (m : NModule) : Option (NModule → Node) :=
  m.mroOf.findSome? (fun t => lookupA reg.entries t)

/-- Leaf decision of the tracer: a module is a leaf exactly when its identity
is registered, in which case the registered conversion function is applied. -/
def convOf (reg : Registry) : NModule → Option Node :=
  fun m => (lookupReg reg m).map (fun f => f m)

/-- Leaf decision of native execution: primitives execute their own forward,
containers are entered. -/
def nativeConv : NModule → Option Prim
  | .prim _ p => some p
  | _ => none

/-- Errors raised by the tracer: an unsupported, non-eliminable function call,
or a forward call to a child that does not exist. -/
inductive TraceError where
  | unsupportedOperation
  | missingChild
deriving DecidableEq

/-- Flattened dataflow of a hierarchy: every call targets a leaf, identified
by the path of child names from the root, and carries the leaf's converted
payload. -/
inductive FlatE (α : Type) where
  | arg
  | callE (path : List String) (pay : α) (e : FlatE α)
  | add (a b : FlatE α)
  | mul (a b : FlatE α)

/-- Result of flattening one module: either a single leaf payload or the
inlined dataflow of an entered container. -/
inductive Template (α : Type) where
  | leafT (pay : α)
  | exprT (e : FlatE α)

/-- Maps the leaf payloads of a flattened dataflow. -/
def FlatE.map (g : α → β) : FlatE α → FlatE β
  | .arg => .arg
  | .callE p pay e => .callE p (g pay) (FlatE.map g e)
  | .add a b => .add (FlatE.map g a) (FlatE.map g b)
  | .mul a b => .mul (FlatE.map g a) (FlatE.map g b)

/-- Maps the leaf payloads of a template. -/
def Template.map (g : α → β) : Template α → Template β
  | .leafT pay => .leafT (g pay)
  | .exprT e => .exprT (FlatE.map g e)

/-- Prepends a child name onto every leaf path of an inlined dataflow. -/
def prependPath (c : String) : FlatE α → FlatE α
  | .arg => .arg
  | .callE p pay e => .callE (c :: p) pay (prependPath c e)
  | .add a b => .add (prependPath c a) (prependPath c b)
  | .mul a b => .mul (prependPath c a) (prependPath c b)

/-- Substitutes a dataflow for the forward argument of an inlined child. -/
def substE (r : FlatE α) : FlatE α → FlatE α
  | .arg => r
  | .callE p pay e => .callE p pay (substE r e)
  | .add a b => .add (substE r a) (substE r b)
  | .mul a b => .mul (substE r a) (substE r b)

/-- Modelled from the spec: inlines a forward expression against the
templates of the container's children.  A call to a leaf child becomes a leaf
call; a call to an entered child splices the child's dataflow, prefixing its
leaf paths with the child's name; a call to an unknown child fails. -/
def buildE (ts : List (String × Template α)) : Expr → Except TraceError (FlatE α)
  | .arg => .ok .arg
  | .call c e => do
      let e' ← buildE ts e
      match lookupA ts c with
      | none => .error .missingChild
      | some (.leafT pay) => .ok (.callE [c] pay e')
      | some (.exprT inner) => .ok (substE e' (prependPath c inner))
  | .add a b => do
      let a' ← buildE ts a
      let b' ← buildE ts b
      .ok (.add a' b')
  | .mul a b => do
      let a' ← buildE ts a
      let b' ← buildE ts b
      .ok (.mul a' b')

mutual
/-- Modelled from the spec: traversal of a module hierarchy.  Registry
membership (the `conv` leaf decision) is the sole determinant of the
recursion boundary: a module whose identity is registered becomes a single
leaf and its submodules are not traversed; otherwise the traversal enters
its children and inlines its forward dataflow, emitting no node for the
module itself.  A primitive that is not registered cannot be entered and is
an unsupported operation. -/
def flattenG (conv : NModule → Option α) : NModule → Except TraceError (Template α)
  | .prim mro p =>
      match conv (.prim mro p) with
      | some a => .ok (.leafT a)
      | none => .error .unsupportedOperation
  | .container mro aN children fwd =>
      match conv (.container mro aN children fwd) with
      | some a => .ok (.leafT a)
      | none => do
          let ts ← flattenChildren conv children
          let e ← buildE ts fwd
          .ok (.exprT e)

/-- Flattens each child of a container in declaration order. -/
def flattenChildren (conv : NModule → Option α) :
    Children → Except TraceError (List (String × Template α))
  | .nil => .ok []
  | .cons n c rest => do
      let t ← flattenG conv c
      let ts ← flattenChildren conv rest
      .ok ((n, t) :: ts)
end

/-- Graph node names: the synthetic input boundary (named after the forward
argument), the synthetic output boundary, and leaf occurrences identified by
their child path and an occurrence counter (`leafN p 0` renders as the plain
path, `leafN p k` as the path suffixed with `_k`, like the notebook's `lin`
and `lin_1`). -/
inductive NName where
  | inN (s : String)
  | outN
  | leafN (path : List String) (k : Nat)
deriving DecidableEq

/-- Flattened dataflow with occurrence-counted node names assigned. -/
inductive NFlatE (α : Type) where
  | arg
  | callN (name : NName) (pay : α) (e : NFlatE α)
  | add (a b : NFlatE α)
  | mul (a b : NFlatE α)

/-- Maps the leaf payloads of a named dataflow. -/
def NFlatE.map (g : α → β) : NFlatE α → NFlatE β
  | .arg => .arg
  | .callN n pay e => .callN n (g pay) (NFlatE.map g e)
  | .add a b => .add (NFlatE.map g a) (NFlatE.map g b)
  | .mul a b => .mul (NFlatE.map g a) (NFlatE.map g b)

/-- Occurrence counters per leaf path, for deterministic unique naming. -/
abbrev Counter := List (List String × Nat)

/-- Current occurrence count of a path (zero when unseen). -/
def getC (c : Counter) (p : List String) : Nat :=
  (lookupA c p).getD 0

/-- Sets the occurrence count of a path. -/
def setC : Counter → List String → Nat → Counter
  | [], p, k => [(p, k)]
  | (q, v) :: rest, p, k =>
      if q = p then (p, k) :: rest else (q, v) :: setC rest p k

/-- Modelled from the spec: assigns deterministic unique names in call order,
disambiguating repeated use of the same leaf by suffixing an occurrence
counter. -/
def assign : Counter → FlatE α → NFlatE α × Counter
  | c, .arg => (.arg, c)
  | c, .callE p pay e =>
      let r := assign c e
      let k := getC r.2 p
      (.callN (.leafN p k) pay r.1, setC r.2 p (k + 1))
  | c, .add a b =>
      let ra := assign c a
      let rb := assign ra.2 b
      (.add ra.1 rb.1, rb.2)
  | c, .mul a b =>
      let ra := assign c a
      let rb := assign ra.2 b
      (.mul ra.1 rb.1, rb.2)

/-- Whether a flattened dataflow contains a multiplication of two traced
signals (the unsupported, non-eliminable call of the notebook). -/
def hasMulF : FlatE α → Bool
  | .arg => false
  | .callE _ _ e => hasMulF e
  | .add a b => hasMulF a || hasMulF b
  | .mul _ _ => true

/-- Whether a named dataflow contains a multiplication of traced signals. -/
def hasMulN : NFlatE α → Bool
  | .arg => false
  | .callN _ _ e => hasMulN e
  | .add a b => hasMulN a || hasMulN b
  | .mul _ _ => true

/-- The leaf node names of a named dataflow, in call order. -/
def namesOf : NFlatE α → List NName
  | .arg => []
  | .callN n _ e => namesOf e ++ [n]
  | .add a b => namesOf a ++ namesOf b
  | .mul a b => namesOf a ++ namesOf b

/-- Modelled from the spec: the producers of a dataflow's value.  An addition
is eliminated as a node and contributes the producers of both operands, which
fan into the consumer and sum upon arrival. -/
def sourcesE (inName : NName) : NFlatE α → List NName
  | .arg => [inName]
  | .callN n _ _ => [n]
  | .add a b => sourcesE inName a ++ sourcesE inName b
  | .mul a b => sourcesE inName a ++ sourcesE inName b

/-- The graph nodes contributed by a named dataflow, in call order. -/
def emitNodes : NFlatE α → List (NName × α)
  | .arg => []
  | .callN n pay e => emitNodes e ++ [(n, pay)]
  | .add a b => emitNodes a ++ emitNodes b
  | .mul a b => emitNodes a ++ emitNodes b

/-- The graph edges contributed by a named dataflow: each leaf call receives
an edge from every producer of its argument. -/
def emitEdges (inName : NName) : NFlatE α → List (NName × NName)
  | .arg => []
  | .callN n _ e => emitEdges inName e ++ (sourcesE inName e).map (fun s => (s, n))
  | .add a b => emitEdges inName a ++ emitEdges inName b
  | .mul a b => emitEdges inName a ++ emitEdges inName b

/-- A NIR graph: named nodes and directed edges between node names. -/
structure Graph where
  nodes : List (NName × Node)
  edges : List (NName × NName)
deriving DecidableEq

/-- Result of tracing: the recorded notebook outputs show that a root module
that is itself registered converts to the bare mapped node, while an entered
root yields a full graph. -/
inductive TraceResult where
  | node (n : Node)
  | graph (g : Graph)
deriving DecidableEq

/-- Modelled from the spec and the notebook outputs: the tracer.  A
registered root returns its converted node directly (as in the notebook's
`MyLeakyIntegrator` and `AvgPool2d` examples).  Otherwise the hierarchy is
flattened, a multiplication of traced signals is rejected, unique names are
assigned, and the graph is emitted together with synthetic input/output
boundary nodes and their connecting edges. -/
def torch_to_nir (m : NModule) (reg : Registry) : Except TraceError TraceResult :=
  match flattenG (convOf reg) m with
  | .error e => .error e
  | .ok (.leafT nd) => .ok (.node nd)
  | .ok (.exprT e) =>
      if hasMulF e then .error .unsupportedOperation
      else
        let ne := (assign [] e).1
        let inName := NName.inN m.rootArg
        .ok (.graph
          { nodes := (inName, .input) :: emitNodes ne ++ [(NName.outN, .output)]
            edges := emitEdges inName ne ++
              (sourcesE inName ne).map (fun s => (s, NName.outN)) })

/-- Runtime-type identity of `torch.nn.Linear` in the model. -/
def linT : Nat := 0

/-- Runtime-type identity of `MyLeakyIntegrator` in the model. -/
def liT : Nat := 1

/-- The notebook's conversion for `torch.nn.Linear`: an affine node carrying
the module's weight and bias. -/
def linConv : NModule → Node
  | .prim _ (.linear w b) => .affine w b
  | _ => .affine 0 0

/-- The notebook's conversion for `MyLeakyIntegrator`: an LI node carrying
the module's `tau`, `r` and `v_leak`. -/
def liConv : NModule → Node
  | .prim _ (.myLI tau r vleak) => .li tau r vleak
  | _ => .li 0 0 0

/-- The tracing registry of the notebooks, combining `my_torch_dictionary`
(`MyLeakyIntegrator` to `nir.LI`) and `torch_to_nir_map` (`torch.nn.Linear`
to `nir.Affine`). -/
def myReg : Registry := ⟨[(linT, linConv), (liT, liConv)]⟩

/-- The canonical node a primitive converts to under the notebook registry. -/
def nodeOfPrim : Prim → Node
  | .linear w b => .affine w b
  | .myLI tau r vleak => .li tau r vleak

/-- Explicit state of a composed or native module: one entry per stateful
node occurrence, keyed by node name. -/
abbrev StateMap := List (NName × Value)

/-- Looks up the state of a node occurrence. -/
def lookupS (st : StateMap) (n : NName) : Option Value :=
  lookupA st n

/-- Stores the state of a node occurrence, replacing an existing entry. -/
def updateS : StateMap → NName → Value → StateMap
  | [], n, v => [(n, v)]
  | (q, w) :: rest, n, v =>
      if q = n then (n, v) :: rest else (q, w) :: updateS rest n v

/-- Applies an optional outgoing state of a node occurrence. -/
def applyUpd (st : StateMap) (n : NName) : Option Value → StateMap
  | none => st
  | some v => updateS st n v

/-- Modelled from the spec: native execution of a flattened forward pass,
threading the explicit state map through the leaf calls in call order. -/
def evalN (x : Value) : NFlatE Prim → StateMap → Value × StateMap
  | .arg, st => (x, st)
  | .callN n p e, st =>
      let r := evalN x e st
      let o := primEval p r.1 (lookupS r.2 n)
      (o.1, applyUpd r.2 n o.2)
  | .add a b, st =>
      let ra := evalN x a st
      let rb := evalN x b ra.2
      (ra.1 + rb.1, rb.2)
  | .mul a b, st =>
      let ra := evalN x a st
      let rb := evalN x b ra.2
      (ra.1 * rb.1, rb.2)

/-- Modelled from the spec: the native behaviour of a module hierarchy,
against which the round trip is measured: the hierarchy's forward dataflow
with explicit state passed in and returned out on every call. -/
def moduleEval (m : NModule) (x : Value) (st : StateMap) :
    Except TraceError (Value × StateMap) :=
  match flattenG nativeConv m with
  | .error e => .error e
  | .ok (.leafT p) =>
      let r := primEval p x (lookupS st (NName.leafN [] 0))
      .ok (r.1, applyUpd st (NName.leafN [] 0) r.2)
  | .ok (.exprT e) =>
      .ok (evalN x (assign [] e).1 st)

/-- Errors raised by the interpreter: a node kind without a registered
constructor, or an edge relation without a valid topological order. -/
inductive InterpError where
  | unsupportedNode
  | cycleError
deriving DecidableEq

/-- The notebook's interpretation registry `my_nir_dictionary` mapping node
kinds to native-module constructors (`nir.LI` to `MyLeakyIntegrator`,
`nir.Affine` to `torch.nn.Linear`); boundary kinds have no constructor. -/
def my_nir_dictionary : Node → Option Prim
  | .li tau r vleak => some (.myLI tau r vleak)
  | .affine w b => some (.linear w b)
  | _ => none

/-- Resolves a constructor for every non-boundary node of a graph, failing on
a node kind absent from the interpretation registry. -/
def resolve (nmap : Node → Option Prim) :
    List (NName × Node) → Except InterpError (List (NName × Prim))
  | [] => .ok []
  | (_, .input) :: rest => resolve nmap rest
  | (_, .output) :: rest => resolve nmap rest
  | (n, nd) :: rest =>
      match nmap nd with
      | none => .error .unsupportedNode
      | some p => do
          let ps ← resolve nmap rest
          .ok ((n, p) :: ps)

/-- Modelled from the spec: the composed module produced by interpretation,
holding the graph and the instantiated submodule of every non-boundary
node. -/
structure ComposedModule where
  graph : Graph
  prims : List (NName × Prim)

/-- Modelled from the spec: the interpreter.  Instantiates a native
submodule for each node via the interpretation registry and composes them
according to the graph's edges. -/
def nir_to_torch (g : Graph) (nmap : Node → Option Prim) :
    Except InterpError ComposedModule :=
  match resolve nmap g.nodes with
  | .error e => .error e
  | .ok ps => .ok ⟨g, ps⟩

/-- The producers feeding a node: sources of the edges arriving at it. -/
def preds (g : Graph) (n : NName) : List NName :=
  (g.edges.filter (fun pr => pr.2 = n)).map (fun pr => pr.1)

/-- Evaluates a list of nodes in order with a supplied node evaluator,
threading the state map. -/
def evalEach (f : NName → StateMap → Except InterpError (Value × StateMap)) :
    List NName → StateMap → Except InterpError (List Value × StateMap)
  | [], st => .ok ([], st)
  | n :: rest, st => do
      let r ← f n st
      let rs ← evalEach f rest r.2
      .ok (r.1 :: rs.1, rs.2)

/-- Modelled from the spec: demand-driven execution of a composed module's
graph.  Signals fanning into a node sum upon arrival; each stateful
submodule reads its incoming state at its node name and writes its outgoing
state back at that name.  The fuel bounds dependency chains; on the acyclic
graphs produced by tracing it never runs out, and exhaustion reports the
cycle error of the spec. -/
def gEval (cm : ComposedModule) (x : Value) :
    Nat → NName → StateMap → Except InterpError (Value × StateMap)
  | 0, _, _ => .error .cycleError
  | fuel + 1, n, st =>
      match lookupA cm.graph.nodes n with
      | none => .error .unsupportedNode
      | some .input => .ok (x, st)
      | some .output => do
          let r ← evalEach (gEval cm x fuel) (preds cm.graph n) st
          .ok (r.1.sum, r.2)
      | some _ => do
          let r ← evalEach (gEval cm x fuel) (preds cm.graph n) st
          match lookupA cm.prims n with
          | none => .error .unsupportedNode
          | some p =>
              let o := primEval p r.1.sum (lookupS r.2 n)
              .ok (o.1, applyUpd r.2 n o.2)

/-- Modelled from the spec: the composed module's call contract
`call(input, state_mapping?) -> (output, updated_state_mapping)`.  An absent
state mapping is treated as empty; the updated mapping is returned
explicitly, never stored inside the module. -/
def ComposedModule.call (cm : ComposedModule) (x : Value) (st : Option StateMap) :
    Except InterpError (Value × StateMap) :=
  gEval cm x (cm.graph.nodes.length + 1) NName.outN (st.getD [])

mutual
/-- Hierarchies built solely from the notebook's leaf modules: primitives
carry their canonical registered identity and containers carry an
unregistered identity. -/
def wellTypedB : NModule → Bool
  | .prim mro p =>
      match p with
      | .linear _ _ => mro = [linT]
      | .myLI _ _ _ => mro = [liT]
  | .container mro _ children _ => mro.isEmpty && wellTypedChildren children

/-- All children are well-typed. -/
def wellTypedChildren : Children → Bool
  | .nil => true
  | .cons _ m rest => wellTypedB m && wellTypedChildren rest
end

/-- Hierarchies covered by the round trip: well-typed, rooted in an entered
container whose dataflow flattens successfully, with no unsupported
multiplication of traced signals. -/
def traceableB (m : NModule) : Bool :=
  wellTypedB m &&
    match flattenG nativeConv m with
    | .ok (.exprT e) => !hasMulF e
    | _ => false

/-- The leaf paths occurring in a flattened dataflow. -/
def pathsF : FlatE α → List (List String)
  | .arg => []
  | .callE p _ e => p :: pathsF e
  | .add a b => pathsF a ++ pathsF b
  | .mul a b => pathsF a ++ pathsF b

/-- Fuel needed to evaluate the producers of a dataflow in the composed
module's graph. -/
def fneed : NFlatE α → Nat
  | .arg => 1
  | .callN _ _ e => fneed e + 1
  | .add a b => max (fneed a) (fneed b)
  | .mul a b => max (fneed a) (fneed b)

/-- The canonical runtime-type identity of a primitive as registered by the
notebooks. -/
def canonMro : Prim → List Nat
  | .linear _ _ => [linT]
  | .myLI _ _ _ => [liT]

/-- The notebook's `MyModule`, generalised over the leaf: a root container
holding one registered leaf child `lin` whose forward returns
`self.lin(x) + self.lin(x)`. -/
def sharedLeaf (p : Prim) : NModule :=
  .container [] "x" (.cons "lin" (.prim (canonMro p) p) .nil)
    (.add (.call "lin" .arg) (.call "lin" .arg))

/-- A variant of `MyModule` whose forward multiplies the two linearities, the
unsupported, non-eliminable call of the notebook. -/
def mulShared (p : Prim) : NModule :=
  .container [] "x" (.cons "lin" (.prim (canonMro p) p) .nil)
    (.mul (.call "lin" .arg) (.call "lin" .arg))

/-- A hierarchy with a single stateful leaf: a container calling one
`MyLeakyIntegrator` child, as in the notebook's import example. -/
def liMod (tau r vleak : Value) : NModule :=
  .container [] "x" (.cons "li" (.prim [liT] (.myLI tau r vleak)) .nil)
    (.call "li" .arg)

/-- A leaf call occurrence inside a named dataflow: its name, payload and
argument dataflow. -/
inductive Occurs : NFlatE α → NName → α → NFlatE α → Prop where
  | here (n : NName) (p : α) (e : NFlatE α) : Occurs (.callN n p e) n p e
  | under (n' : NName) (p' : α) {e : NFlatE α} {n : NName} {p : α} {a : NFlatE α} :
      Occurs e n p a → Occurs (.callN n' p' e) n p a
  | left {x y : NFlatE α} {n : NName} {p : α} {a : NFlatE α} :
      Occurs x n p a → Occurs (.add x y) n p a
  | right {x y : NFlatE α} {n : NName} {p : α} {a : NFlatE α} :
      Occurs y n p a → Occurs (.add x y) n p a
  | mleft {x y : NFlatE α} {n : NName} {p : α} {a : NFlatE α} :
      Occurs x n p a → Occurs (.mul x y) n p a
  | mright {x y : NFlatE α} {n : NName} {p : α} {a : NFlatE α} :
      Occurs y n p a → Occurs (.mul x y) n p a

/-! ### Basic lemmas about the emitted graph structure -/

theorem sourcesE_ne_nil (inName : NName) (e : NFlatE α) :
    sourcesE inName e ≠ [] := by
  induction e with
  | arg => simp [sourcesE]
  | callN n p e ih => simp [sourcesE]
  | add a b iha ihb =>
      simp only [sourcesE]
      exact fun h => iha (List.append_eq_nil.mp h).1
  | mul a b iha ihb =>
      simp only [sourcesE]
      exact fun h => iha (List.append_eq_nil.mp h).1

theorem inName_edge (inName : NName) (e : NFlatE α) :
    (∃ t, (inName, t) ∈ emitEdges inName e) ∨ inName ∈ sourcesE inName e := by
  induction e with
  | arg => right; simp [sourcesE]
  | callN n p e ih =>
      left
      rcases ih with ⟨t, ht⟩ | hs
      · exact ⟨t, by simp only [emitEdges]; exact List.mem_append_left _ ht⟩
      · exact ⟨n, by
          simp only [emitEdges]
          exact List.mem_append_right _ (List.mem_map.mpr ⟨inName, hs, rfl⟩)⟩
  | add a b iha ihb =>
      rcases iha with ⟨t, ht⟩ | hs
      · exact .inl ⟨t, by simp only [emitEdges]; exact List.mem_append_left _ ht⟩
      · exact .inr (by simp only [sourcesE]; exact List.mem_append_left _ hs)
  | mul a b iha ihb =>
      rcases iha with ⟨t, ht⟩ | hs
      · exact .inl ⟨t, by simp only [emitEdges]; exact List.mem_append_left _ ht⟩
      · exact .inr (by simp only [sourcesE]; exact List.mem_append_left _ hs)

theorem trace_graph_inv {m : NModule} {reg : Registry} {g : Graph}
    (h : torch_to_nir m reg = .ok (.graph g)) :
    ∃ e, flattenG (convOf reg) m = .ok (.exprT e) ∧ hasMulF e = false ∧
      g = { nodes := (NName.inN m.rootArg, .input) :: emitNodes (assign [] e).1 ++
                       [(NName.outN, .output)]
            edges := emitEdges (NName.inN m.rootArg) (assign [] e).1 ++
                       (sourcesE (NName.inN m.rootArg) (assign [] e).1).map
                         (fun s => (s, NName.outN)) } := by
  unfold torch_to_nir at h
  cases hf : flattenG (convOf reg) m with
  | error e => rw [hf] at h; exact absurd h (by simp)
  | ok t =>
      cases t with
      | leafT nd => rw [hf] at h; exact absurd h (by simp)
      | exprT e =>
          rw [hf] at h
          by_cases hm : hasMulF e
          · simp [hm] at h
          · simp [hm] at h
            exact ⟨e, rfl, by simp [hm], h.symm⟩

/-! ### Claim theorems: structural claims -/

/-- C2: a module whose forward pass computes `f(x) + f(x)` with `f` a
registered leaf traces to a graph with exactly two leaf nodes for `f` and two
edges from those nodes into the output node, and no node for the addition
operator: the addition is eliminated and each operand is wired directly to
the addition's consumer. -/
theorem add_elimination (p : Prim) :
    torch_to_nir (sharedLeaf p) myReg = .ok (.graph
      { nodes := [(.inN "x", .input), (.leafN ["lin"] 0, nodeOfPrim p),
                  (.leafN ["lin"] 1, nodeOfPrim p), (.outN, .output)]
        edges := [(.inN "x", .leafN ["lin"] 0), (.inN "x", .leafN ["lin"] 1),
                  (.leafN ["lin"] 0, .outN), (.leafN ["lin"] 1, .outN)] }) := by
  cases p <;> rfl

/-- C10: when the same leaf instance is called twice in the forward pass,
the two resulting graph nodes are distinct by name but carry equal,
duplicated copies of the instance's parameters: weight sharing is
represented by parameter duplication, not by a single shared node. -/
theorem weight_duplication (p : Prim) :
    ∃ g, torch_to_nir (sharedLeaf p) myReg = .ok (.graph g) ∧
      lookupA g.nodes (.leafN ["lin"] 0) = some (nodeOfPrim p) ∧
      lookupA g.nodes (.leafN ["lin"] 1) = some (nodeOfPrim p) ∧
      (NName.leafN ["lin"] 0) ≠ (NName.leafN ["lin"] 1) := by
  cases p <;> exact ⟨_, rfl, rfl, rfl, by decide⟩

/-- C3 counterexample: tracing the notebook's registered root
`MyLeakyIntegrator` yields the bare mapped `LI` node, exactly as recorded in
the notebook's execution output; no graph and hence no synthetic boundary
nodes are produced, refuting the claim for the registered-leaf-root case. -/
theorem leaf_root_bare_node :
    torch_to_nir (.prim [liT] (.myLI 1 1 1)) myReg = .ok (.node (.li 1 1 1)) ∧
    ∀ g : Graph, torch_to_nir (.prim [liT] (.myLI 1 1 1)) myReg ≠ .ok (.graph g) := by
  refine ⟨rfl, fun g h => ?_⟩
  rw [show torch_to_nir (.prim [liT] (.myLI 1 1 1)) myReg
        = .ok (.node (.li 1 1 1)) from rfl] at h
  exact TraceResult.noConfusion (Except.ok.inj h)

/-- C3 amended: whenever the tracer returns a graph — that is, whenever the
root module is not itself a registered leaf — the graph contains the
synthetic input and output boundary nodes, with at least one edge leaving
the input boundary and at least one edge entering the output boundary; a
registered-leaf root instead returns the bare mapped node. -/
theorem boundary_nodes (m : NModule) (reg : Registry) (g : Graph)
    (h : torch_to_nir m reg = .ok (.graph g)) :
    (NName.inN m.rootArg, Node.input) ∈ g.nodes ∧
    (NName.outN, Node.output) ∈ g.nodes ∧
    (∃ t, (NName.inN m.rootArg, t) ∈ g.edges) ∧
    (∃ s, (s, NName.outN) ∈ g.edges) := by
  obtain ⟨e, hf, hm, hg⟩ := trace_graph_inv h
  subst hg
  refine ⟨List.mem_cons_self _ _, ?_, ?_, ?_⟩
  · exact List.mem_cons_of_mem _
      (List.mem_append_right _ (List.mem_singleton.mpr rfl))
  · rcases inName_edge (NName.inN m.rootArg) (assign [] e).1 with ⟨t, ht⟩ | hs
    · exact ⟨t, List.mem_append_left _ ht⟩
    · exact ⟨NName.outN, List.mem_append_right _ (List.mem_map.mpr ⟨_, hs, rfl⟩)⟩
  · cases hs : sourcesE (NName.inN m.rootArg) (assign [] e).1 with
    | nil => exact absurd hs (sourcesE_ne_nil _ _)
    | cons s rest =>
        exact ⟨s, List.mem_append_right _
          (List.mem_map.mpr ⟨s, List.mem_cons_self _ _, rfl⟩)⟩

theorem boundary_nodes_witness :
    (NName.inN (sharedLeaf (Prim.linear 1 1)).rootArg, Node.input) ∈
      ({ nodes := [(.inN "x", .input), (.leafN ["lin"] 0, .affine 1 1),
                   (.leafN ["lin"] 1, .affine 1 1), (.outN, .output)]
         edges := [(.inN "x", .leafN ["lin"] 0), (.inN "x", .leafN ["lin"] 1),
                   (.leafN ["lin"] 0, .outN), (.leafN ["lin"] 1, .outN)] } : Graph).nodes ∧
    (NName.outN, Node.output) ∈
      ({ nodes := [(.inN "x", .input), (.leafN ["lin"] 0, .affine 1 1),
                   (.leafN ["lin"] 1, .affine 1 1), (.outN, .output)]
         edges := [(.inN "x", .leafN ["lin"] 0), (.inN "x", .leafN ["lin"] 1),
                   (.leafN ["lin"] 0, .outN), (.leafN ["lin"] 1, .outN)] } : Graph).nodes ∧
    (∃ t, (NName.inN (sharedLeaf (Prim.linear 1 1)).rootArg, t) ∈
      ({ nodes := [(.inN "x", .input), (.leafN ["lin"] 0, .affine 1 1),
                   (.leafN ["lin"] 1, .affine 1 1), (.outN, .output)]
         edges := [(.inN "x", .leafN ["lin"] 0), (.inN "x", .leafN ["lin"] 1),
                   (.leafN ["lin"] 0, .outN), (.leafN ["lin"] 1, .outN)] } : Graph).edges) ∧
    (∃ s, (s, NName.outN) ∈
      ({ nodes := [(.inN "x", .input), (.leafN ["lin"] 0, .affine 1 1),
                   (.leafN ["lin"] 1, .affine 1 1), (.outN, .output)]
         edges := [(.inN "x", .leafN ["lin"] 0), (.inN "x", .leafN ["lin"] 1),
                   (.leafN ["lin"] 0, .outN), (.leafN ["lin"] 1, .outN)] } : Graph).edges) :=
  boundary_nodes (sharedLeaf (.linear 1 1)) myReg _ rfl

/-- C5: an unsupported function call that cannot be eliminated by rewriting —
a multiplication of two traced signals in the flattened forward — makes
tracing fail with the unsupported-operation error at once, and no partial or
degraded graph is returned. -/
theorem mul_unsupported (m : NModule) (reg : Registry) (e : FlatE Node)
    (hf : flattenG (convOf reg) m = .ok (.exprT e)) (hm : hasMulF e = true) :
    torch_to_nir m reg = .error .unsupportedOperation := by
  unfold torch_to_nir
  rw [hf]
  simp [hm]

theorem mul_unsupported_witness :
    torch_to_nir (mulShared (.linear 1 1)) myReg = .error .unsupportedOperation :=
  mul_unsupported (mulShared (.linear 1 1)) myReg
    (.mul (.callE ["lin"] (.affine 1 1) .arg) (.callE ["lin"] (.affine 1 1) .arg))
    rfl rfl

/-- C8: with both a base type and a derived type registered, a module whose
runtime identity is the derived type is converted with the derived-type
mapping function: the most specific matching registry entry wins, regardless
of the order of the registry entries. -/
theorem derived_wins (d b : Nat) (hne : b ≠ d) (fd fb : NModule → Node) (p : Prim) :
    torch_to_nir (.prim [d, b] p) ⟨[(b, fb), (d, fd)]⟩ =
      .ok (.node (fd (.prim [d, b] p))) := by
  unfold torch_to_nir flattenG convOf lookupReg NModule.mroOf
  simp [List.findSome?, lookupA, hne]

theorem derived_wins_witness :
    torch_to_nir (.prim [liT, linT] (.myLI 2 3 4)) ⟨[(linT, linConv), (liT, liConv)]⟩ =
      .ok (.node (liConv (.prim [liT, linT] (.myLI 2 3 4)))) :=
  derived_wins liT linT (by decide) liConv linConv (.myLI 2 3 4)

/-! ### Occurrence counters and name uniqueness -/

theorem getC_setC_self (c : Counter) (p : List String) (k : Nat) :
    getC (setC c p k) p = k := by
  induction c with
  | nil => simp [getC, setC, lookupA]
  | cons hd tl ih =>
      obtain ⟨q, v⟩ := hd
      by_cases hq : q = p
      · subst hq; simp [getC, setC, lookupA]
      · simp [getC, setC, lookupA, hq] at ih ⊢
        exact ih

theorem getC_setC_ne (c : Counter) {p q : List String} (h : q ≠ p) (k : Nat) :
    getC (setC c p k) q = getC c q := by
  have hpq : p ≠ q := fun hc => h hc.symm
  induction c with
  | nil => simp only [setC, getC, lookupA, if_neg hpq]
  | cons hd tl ih =>
      obtain ⟨r, v⟩ := hd
      by_cases hr : r = p
      · subst hr
        simp only [setC, if_pos rfl, getC, lookupA, if_neg hpq]
      · simp only [setC, if_neg hr, getC, lookupA]
        by_cases hrq : r = q
        · simp only [if_pos hrq]
        · simp only [if_neg hrq]
          exact ih

theorem getC_assign_le (e : FlatE α) (c : Counter) (p : List String) :
    getC c p ≤ getC (assign c e).2 p := by
  induction e generalizing c with
  | arg => simp [assign]
  | callE q pay e ih =>
      simp only [assign]
      by_cases hq : p = q
      · subst hq
        rw [getC_setC_self]
        exact le_trans (ih c) (Nat.le_succ _)
      · rw [getC_setC_ne _ hq]
        exact ih c
  | add a b iha ihb =>
      simp only [assign]
      exact le_trans (iha c) (ihb _)
  | mul a b iha ihb =>
      simp only [assign]
      exact le_trans (iha c) (ihb _)

theorem namesOf_assign_range (e : FlatE α) (c : Counter) {n : NName}
    (hn : n ∈ namesOf (assign c e).1) :
    ∃ p k, n = .leafN p k ∧ getC c p ≤ k ∧ k < getC (assign c e).2 p := by
  induction e generalizing c with
  | arg => simp [assign, namesOf] at hn
  | callE q pay e ih =>
      simp only [assign, namesOf, List.mem_append, List.mem_singleton] at hn
      rcases hn with hn | hn
      · obtain ⟨p, k, hnk, hle, hlt⟩ := ih c hn
        refine ⟨p, k, hnk, hle, ?_⟩
        simp only [assign]
        by_cases hq : p = q
        · subst hq
          rw [getC_setC_self]
          exact lt_trans hlt (Nat.lt_succ_self _)
        · rw [getC_setC_ne _ hq]
          exact hlt
      · refine ⟨q, getC (assign c e).2 q, hn, getC_assign_le e c q, ?_⟩
        simp only [assign]
        rw [getC_setC_self]
        exact Nat.lt_succ_self _
  | add a b iha ihb =>
      simp only [assign, namesOf, List.mem_append] at hn
      rcases hn with hn | hn
      · obtain ⟨p, k, hnk, hle, hlt⟩ := iha c hn
        exact ⟨p, k, hnk, hle, lt_of_lt_of_le hlt (getC_assign_le b _ p)⟩
      · obtain ⟨p, k, hnk, hle, hlt⟩ := ihb (assign c a).2 hn
        exact ⟨p, k, hnk, le_trans (getC_assign_le a c p) hle, by simpa [assign] using hlt⟩
  | mul a b iha ihb =>
      simp only [assign, namesOf, List.mem_append] at hn
      rcases hn with hn | hn
      · obtain ⟨p, k, hnk, hle, hlt⟩ := iha c hn
        exact ⟨p, k, hnk, hle, lt_of_lt_of_le hlt (getC_assign_le b _ p)⟩
      · obtain ⟨p, k, hnk, hle, hlt⟩ := ihb (assign c a).2 hn
        exact ⟨p, k, hnk, le_trans (getC_assign_le a c p) hle, by simpa [assign] using hlt⟩

theorem namesOf_assign_nodup (e : FlatE α) (c : Counter) :
    (namesOf (assign c e).1).Nodup := by
  induction e generalizing c with
  | arg => simp [assign, namesOf]
  | callE q pay e ih =>
      simp only [assign, namesOf]
      rw [List.nodup_append]
      refine ⟨ih c, List.nodup_singleton _, ?_⟩
      intro n hn hn1
      rw [List.mem_singleton] at hn1
      obtain ⟨p, k, hnk, hle, hlt⟩ := namesOf_assign_range e c hn
      obtain ⟨hp, hk⟩ := NName.leafN.inj (hnk.symm.trans hn1)
      rw [hp] at hlt
      rw [hk] at hlt
      exact absurd hlt (lt_irrefl _)
  | add a b iha ihb =>
      simp only [assign, namesOf]
      rw [List.nodup_append]
      refine ⟨iha c, ihb (assign c a).2, ?_⟩
      intro n hna hnb
      obtain ⟨p, k, hnk, _, hlt⟩ := namesOf_assign_range a c hna
      obtain ⟨p', k', hnk', hle', _⟩ := namesOf_assign_range b (assign c a).2 hnb
      obtain ⟨hp, hk⟩ := NName.leafN.inj (hnk.symm.trans hnk')
      rw [← hp] at hle'
      rw [← hk] at hle'
      exact absurd (lt_of_lt_of_le hlt hle') (lt_irrefl _)
  | mul a b iha ihb =>
      simp only [assign, namesOf]
      rw [List.nodup_append]
      refine ⟨iha c, ihb (assign c a).2, ?_⟩
      intro n hna hnb
      obtain ⟨p, k, hnk, _, hlt⟩ := namesOf_assign_range a c hna
      obtain ⟨p', k', hnk', hle', _⟩ := namesOf_assign_range b (assign c a).2 hnb
      obtain ⟨hp, hk⟩ := NName.leafN.inj (hnk.symm.trans hnk')
      rw [← hp] at hle'
      rw [← hk] at hle'
      exact absurd (lt_of_lt_of_le hlt hle') (lt_irrefl _)

theorem emitNodes_fst (e : NFlatE α) :
    (emitNodes e).map Prod.fst = namesOf e := by
  induction e with
  | arg => rfl
  | callN n pay e ih => simp [emitNodes, namesOf, ih]
  | add a b iha ihb => simp [emitNodes, namesOf, iha, ihb]
  | mul a b iha ihb => simp [emitNodes, namesOf, iha, ihb]

theorem sourcesE_sub (inName : NName) (e : NFlatE α) {s : NName}
    (h : s ∈ sourcesE inName e) : s = inName ∨ s ∈ namesOf e := by
  induction e with
  | arg => simp [sourcesE] at h; exact .inl h
  | callN n pay e ih =>
      simp [sourcesE] at h
      right
      simp [namesOf, h]
  | add a b iha ihb =>
      simp only [sourcesE, List.mem_append] at h
      rcases h with h | h
      · rcases iha h with h1 | h1
        · exact .inl h1
        · exact .inr (by simp [namesOf]; exact .inl h1)
      · rcases ihb h with h1 | h1
        · exact .inl h1
        · exact .inr (by simp [namesOf]; exact .inr h1)
  | mul a b iha ihb =>
      simp only [sourcesE, List.mem_append] at h
      rcases h with h | h
      · rcases iha h with h1 | h1
        · exact .inl h1
        · exact .inr (by simp [namesOf]; exact .inl h1)
      · rcases ihb h with h1 | h1
        · exact .inl h1
        · exact .inr (by simp [namesOf]; exact .inr h1)

theorem emitEdges_mem (inName : NName) (e : NFlatE α) {pr : NName × NName}
    (h : pr ∈ emitEdges inName e) :
    (pr.1 = inName ∨ pr.1 ∈ namesOf e) ∧ pr.2 ∈ namesOf e := by
  induction e with
  | arg => simp [emitEdges] at h
  | callN n pay e ih =>
      simp only [emitEdges, List.mem_append] at h
      rcases h with h | h
      · obtain ⟨h1, h2⟩ := ih h
        refine ⟨?_, by simp [namesOf]; exact .inl h2⟩
        rcases h1 with h1 | h1
        · exact .inl h1
        · exact .inr (by simp [namesOf]; exact .inl h1)
      · obtain ⟨s, hs, hpr⟩ := List.mem_map.mp h
        rw [← hpr]
        refine ⟨?_, by simp [namesOf]⟩
        rcases sourcesE_sub inName e hs with h1 | h1
        · exact .inl h1
        · exact .inr (by simp [namesOf]; exact .inl h1)
  | add a b iha ihb =>
      simp only [emitEdges, List.mem_append] at h
      rcases h with h | h
      · obtain ⟨h1, h2⟩ := iha h
        refine ⟨?_, by simp [namesOf]; exact .inl h2⟩
        rcases h1 with h1 | h1
        · exact .inl h1
        · exact .inr (by simp [namesOf]; exact .inl h1)
      · obtain ⟨h1, h2⟩ := ihb h
        refine ⟨?_, by simp [namesOf]; exact .inr h2⟩
        rcases h1 with h1 | h1
        · exact .inl h1
        · exact .inr (by simp [namesOf]; exact .inr h1)
  | mul a b iha ihb =>
      simp only [emitEdges, List.mem_append] at h
      rcases h with h | h
      · obtain ⟨h1, h2⟩ := iha h
        refine ⟨?_, by simp [namesOf]; exact .inl h2⟩
        rcases h1 with h1 | h1
        · exact .inl h1
        · exact .inr (by simp [namesOf]; exact .inl h1)
      · obtain ⟨h1, h2⟩ := ihb h
        refine ⟨?_, by simp [namesOf]; exact .inr h2⟩
        rcases h1 with h1 | h1
        · exact .inl h1
        · exact .inr (by simp [namesOf]; exact .inr h1)

theorem namesOf_assign_leaf (e : FlatE α) (c : Counter) {n : NName}
    (hn : n ∈ namesOf (assign c e).1) : ∃ p k, n = NName.leafN p k := by
  obtain ⟨p, k, h, _, _⟩ := namesOf_assign_range e c hn
  exact ⟨p, k, h⟩

/-- C7: the tracer assigns every node a deterministic, unique name: in every
traced graph the node names are pairwise distinct, and two calls to the same
submodule instance are disambiguated by the occurrence counter, yielding the
notebook's `lin` and `lin_1` node pair. -/
theorem unique_names :
    (∀ (m : NModule) (reg : Registry) (g : Graph),
        torch_to_nir m reg = .ok (.graph g) → (g.nodes.map Prod.fst).Nodup) ∧
    (∀ p : Prim, ∃ g, torch_to_nir (sharedLeaf p) myReg = .ok (.graph g) ∧
        g.nodes.map Prod.fst =
          [.inN "x", .leafN ["lin"] 0, .leafN ["lin"] 1, .outN]) := by
  constructor
  · intro m reg g h
    obtain ⟨e, hf, hm, hg⟩ := trace_graph_inv h
    subst hg
    have hfst : (((NName.inN m.rootArg, Node.input) :: emitNodes (assign [] e).1 ++
        [(NName.outN, Node.output)]).map Prod.fst) =
        NName.inN m.rootArg :: (namesOf (assign [] e).1 ++ [NName.outN]) := by
      simp [emitNodes_fst]
    show (((NName.inN m.rootArg, Node.input) :: emitNodes (assign [] e).1 ++
        [(NName.outN, Node.output)]).map Prod.fst).Nodup
    rw [hfst, List.nodup_cons, List.nodup_append]
    refine ⟨?_, namesOf_assign_nodup e [], List.nodup_singleton _, ?_⟩
    · intro hmem
      rcases List.mem_append.mp hmem with hmem | hmem
      · obtain ⟨p, k, hpk⟩ := namesOf_assign_leaf e [] hmem
        exact NName.noConfusion hpk
      · rw [List.mem_singleton] at hmem
        exact NName.noConfusion hmem
    · intro n hn hn1
      rw [List.mem_singleton] at hn1
      obtain ⟨p, k, hpk⟩ := namesOf_assign_leaf e [] hn
      rw [hn1] at hpk
      exact NName.noConfusion hpk
  · intro p
    cases p <;> exact ⟨_, rfl, rfl⟩

theorem unique_names_witness :
    (([.inN "x", .leafN ["lin"] 0, .leafN ["lin"] 1, .outN] : List NName)).Nodup ∧
    (∃ g, torch_to_nir (sharedLeaf (.linear 1 1)) myReg = .ok (.graph g) ∧
        g.nodes.map Prod.fst =
          [.inN "x", .leafN ["lin"] 0, .leafN ["lin"] 1, .outN]) := by
  constructor
  · exact unique_names.1 (sharedLeaf (.linear 1 1)) myReg
      { nodes := [(.inN "x", .input), (.leafN ["lin"] 0, .affine 1 1),
                  (.leafN ["lin"] 1, .affine 1 1), (.outN, .output)]
        edges := [(.inN "x", .leafN ["lin"] 0), (.inN "x", .leafN ["lin"] 1),
                  (.leafN ["lin"] 0, .outN), (.leafN ["lin"] 1, .outN)] } rfl
  · exact unique_names.2 (.linear 1 1)

/-- C9: in every graph produced by tracing, the source name and destination
name of each edge are names of nodes of the same graph. -/
theorem edges_reference_nodes (m : NModule) (reg : Registry) (g : Graph)
    (h : torch_to_nir m reg = .ok (.graph g)) (pr : NName × NName)
    (hpr : pr ∈ g.edges) :
    pr.1 ∈ g.nodes.map Prod.fst ∧ pr.2 ∈ g.nodes.map Prod.fst := by
  obtain ⟨e, hf, hm, hg⟩ := trace_graph_inv h
  subst hg
  have hfst : (((NName.inN m.rootArg, Node.input) :: emitNodes (assign [] e).1 ++
      [(NName.outN, Node.output)]).map Prod.fst) =
      NName.inN m.rootArg :: (namesOf (assign [] e).1 ++ [NName.outN]) := by
    simp [emitNodes_fst]
  show pr.1 ∈ (((NName.inN m.rootArg, Node.input) :: emitNodes (assign [] e).1 ++
      [(NName.outN, Node.output)]).map Prod.fst) ∧
    pr.2 ∈ (((NName.inN m.rootArg, Node.input) :: emitNodes (assign [] e).1 ++
      [(NName.outN, Node.output)]).map Prod.fst)
  rw [hfst]
  have hmemName : ∀ n, n ∈ namesOf (assign [] e).1 →
      n ∈ NName.inN m.rootArg :: (namesOf (assign [] e).1 ++ [NName.outN]) :=
    fun n hn => List.mem_cons_of_mem _ (List.mem_append_left _ hn)
  have hmemIn : NName.inN m.rootArg ∈
      NName.inN m.rootArg :: (namesOf (assign [] e).1 ++ [NName.outN]) :=
    List.mem_cons_self _ _
  have hmemOut : NName.outN ∈
      NName.inN m.rootArg :: (namesOf (assign [] e).1 ++ [NName.outN]) :=
    List.mem_cons_of_mem _ (List.mem_append_right _ (List.mem_singleton.mpr rfl))
  rcases List.mem_append.mp hpr with hpr | hpr
  · obtain ⟨h1, h2⟩ := emitEdges_mem _ _ hpr
    refine ⟨?_, hmemName _ h2⟩
    rcases h1 with h1 | h1
    · rw [h1]; exact hmemIn
    · exact hmemName _ h1
  · obtain ⟨s, hs, hpr'⟩ := List.mem_map.mp hpr
    rw [← hpr']
    refine ⟨?_, hmemOut⟩
    rcases sourcesE_sub _ _ hs with h1 | h1
    · rw [h1]; exact hmemIn
    · exact hmemName _ h1

theorem edges_reference_nodes_witness :
    ((NName.inN "x", NName.leafN ["lin"] 0) : NName × NName).1 ∈
      ({ nodes := [(.inN "x", .input), (.leafN ["lin"] 0, .affine 1 1),
                   (.leafN ["lin"] 1, .affine 1 1), (.outN, .output)]
         edges := [(.inN "x", .leafN ["lin"] 0), (.inN "x", .leafN ["lin"] 1),
                   (.leafN ["lin"] 0, .outN), (.leafN ["lin"] 1, .outN)] } : Graph).nodes.map
        Prod.fst ∧
    ((NName.inN "x", NName.leafN ["lin"] 0) : NName × NName).2 ∈
      ({ nodes := [(.inN "x", .input), (.leafN ["lin"] 0, .affine 1 1),
                   (.leafN ["lin"] 1, .affine 1 1), (.outN, .output)]
         edges := [(.inN "x", .leafN ["lin"] 0), (.inN "x", .leafN ["lin"] 1),
                   (.leafN ["lin"] 0, .outN), (.leafN ["lin"] 1, .outN)] } : Graph).nodes.map
        Prod.fst :=
  edges_reference_nodes (sharedLeaf (.linear 1 1)) myReg
    { nodes := [(.inN "x", .input), (.leafN ["lin"] 0, .affine 1 1),
                (.leafN ["lin"] 1, .affine 1 1), (.outN, .output)]
      edges := [(.inN "x", .leafN ["lin"] 0), (.inN "x", .leafN ["lin"] 1),
                (.leafN ["lin"] 0, .outN), (.leafN ["lin"] 1, .outN)] } rfl
    (.inN "x", .leafN ["lin"] 0) (by decide)

/-! ### Registry membership is the recursion boundary -/

theorem flattenG_leaf {conv : NModule → Option α} {m : NModule} {a : α}
    (h : conv m = some a) : flattenG conv m = .ok (.leafT a) := by
  cases m with
  | prim mro p => unfold flattenG; rw [h]
  | container mro aN ch fwd => unfold flattenG; rw [h]

theorem pathsF_prependPath (c : String) (e : FlatE α) :
    pathsF (prependPath c e) = (pathsF e).map (fun p => c :: p) := by
  induction e with
  | arg => rfl
  | callE p pay e ih => simp [prependPath, pathsF, ih]
  | add a b iha ihb => simp [prependPath, pathsF, iha, ihb]
  | mul a b iha ihb => simp [prependPath, pathsF, iha, ihb]

theorem pathsF_substE (r e : FlatE α) {p : List String}
    (h : p ∈ pathsF (substE r e)) : p ∈ pathsF e ∨ p ∈ pathsF r := by
  induction e with
  | arg => exact .inr h
  | callE q pay e ih =>
      simp only [substE, pathsF, List.mem_cons] at h ⊢
      rcases h with h | h
      · exact .inl (.inl h)
      · rcases ih h with h1 | h1
        · exact .inl (.inr h1)
        · exact .inr h1
  | add a b iha ihb =>
      simp only [substE, pathsF, List.mem_append] at h ⊢
      rcases h with h | h
      · rcases iha h with h1 | h1
        · exact .inl (.inl h1)
        · exact .inr h1
      · rcases ihb h with h1 | h1
        · exact .inl (.inr h1)
        · exact .inr h1
  | mul a b iha ihb =>
      simp only [substE, pathsF, List.mem_append] at h ⊢
      rcases h with h | h
      · rcases iha h with h1 | h1
        · exact .inl (.inl h1)
        · exact .inr h1
      · rcases ihb h with h1 | h1
        · exact .inl (.inr h1)
        · exact .inr h1

theorem buildE_paths {ts : List (String × Template α)} {fwd : Expr} {e : FlatE α}
    (hb : buildE ts fwd = .ok e) {p : List String} (hp : p ∈ pathsF e) :
    ∃ c, p.head? = some c ∧ (lookupA ts c).isSome := by
  induction fwd generalizing e with
  | arg =>
      obtain rfl : FlatE.arg = e := Except.ok.inj hb
      simp [pathsF] at hp
  | call c e0 ih =>
      simp only [buildE] at hb
      cases hb0 : buildE ts e0 with
      | error err => rw [hb0] at hb; exact Except.noConfusion hb
      | ok e' =>
          rw [hb0] at hb
          cases hl : lookupA ts c with
          | none => rw [hl] at hb; exact Except.noConfusion hb
          | some t =>
              rw [hl] at hb
              cases t with
              | leafT pay =>
                  obtain rfl := Except.ok.inj hb
                  simp only [pathsF, List.mem_cons] at hp
                  rcases hp with hp | hp
                  · exact ⟨c, by rw [hp]; rfl, by rw [hl]; rfl⟩
                  · exact ih hb0 hp
              | exprT inner =>
                  obtain rfl := Except.ok.inj hb
                  rcases pathsF_substE e' (prependPath c inner) hp with h1 | h1
                  · rw [pathsF_prependPath] at h1
                    obtain ⟨q, _, hq⟩ := List.mem_map.mp h1
                    exact ⟨c, by rw [← hq]; rfl, by rw [hl]; rfl⟩
                  · exact ih hb0 h1
  | add a b iha ihb =>
      simp only [buildE] at hb
      cases hba : buildE ts a with
      | error err => rw [hba] at hb; exact Except.noConfusion hb
      | ok ea =>
          rw [hba] at hb
          cases hbb : buildE ts b with
          | error err => rw [hbb] at hb; exact Except.noConfusion hb
          | ok eb =>
              rw [hbb] at hb
              obtain rfl := Except.ok.inj hb
              simp only [pathsF, List.mem_append] at hp
              rcases hp with hp | hp
              · exact iha hba hp
              · exact ihb hbb hp
  | mul a b iha ihb =>
      simp only [buildE] at hb
      cases hba : buildE ts a with
      | error err => rw [hba] at hb; exact Except.noConfusion hb
      | ok ea =>
          rw [hba] at hb
          cases hbb : buildE ts b with
          | error err => rw [hbb] at hb; exact Except.noConfusion hb
          | ok eb =>
              rw [hbb] at hb
              obtain rfl := Except.ok.inj hb
              simp only [pathsF, List.mem_append] at hp
              rcases hp with hp | hp
              · exact iha hba hp
              · exact ihb hbb hp

theorem flattenChildren_keys {conv : NModule → Option α} :
    ∀ {ch : Children} {ts : List (String × Template α)},
      flattenChildren conv ch = .ok ts → ts.map Prod.fst = Children.keys ch
  | .nil, ts, h => by
      obtain rfl := Except.ok.inj h
      rfl
  | .cons n c rest, ts, h => by
      rw [flattenChildren] at h
      cases h0 : flattenG conv c with
      | error err => rw [h0] at h; exact Except.noConfusion h
      | ok t =>
          rw [h0] at h
          cases h1 : flattenChildren conv rest with
          | error err => rw [h1] at h; exact Except.noConfusion h
          | ok ts0 =>
              rw [h1] at h
              obtain rfl := Except.ok.inj h
              simp [Children.keys, flattenChildren_keys h1]

theorem lookupA_isSome_mem [DecidableEq κ] {l : List (κ × β)} {k : κ}
    (h : (lookupA l k).isSome = true) : k ∈ l.map Prod.fst := by
  induction l with
  | nil => simp [lookupA] at h
  | cons hd tl ih =>
      obtain ⟨q, v⟩ := hd
      by_cases hq : q = k
      · subst hq; simp
      · simp only [lookupA, if_neg hq] at h
        simp [ih h]

/-- C4: registry membership is the sole determinant of the recursion
boundary.  A module whose identity is registered is recorded as the single
leaf obtained by applying the registered conversion function, without
traversing its submodules; a container whose identity is absent is entered,
and every leaf recorded beneath it comes from one of its children — no node
is emitted for the container itself. -/
theorem registry_boundary :
    (∀ (reg : Registry) (m : NModule) (f : NModule → Node),
        lookupReg reg m = some f →
        flattenG (convOf reg) m = .ok (.leafT (f m))) ∧
    (∀ (reg : Registry) (mro : List Nat) (aN : String) (ch : Children)
        (fwd : Expr) (e : FlatE Node),
        lookupReg reg (.container mro aN ch fwd) = none →
        flattenG (convOf reg) (.container mro aN ch fwd) = .ok (.exprT e) →
        ∀ p ∈ pathsF e, ∃ c, p.head? = some c ∧ c ∈ Children.keys ch) := by
  constructor
  · intro reg m f h
    exact flattenG_leaf (by simp [convOf, h])
  · intro reg mro aN ch fwd e hnone hok p hp
    have hcv : convOf reg (.container mro aN ch fwd) = none := by
      simp [convOf, hnone]
    unfold flattenG at hok
    rw [hcv] at hok
    cases h0 : flattenChildren (convOf reg) ch with
    | error err => rw [h0] at hok; exact Except.noConfusion hok
    | ok ts =>
        rw [h0] at hok
        have hok2 : (do
            let e0 ← buildE ts fwd
            Except.ok (Template.exprT e0)) = Except.ok (Template.exprT e) := hok
        cases h1 : buildE ts fwd with
        | error err => rw [h1] at hok2; exact Except.noConfusion hok2
        | ok e0 =>
            rw [h1] at hok2
            obtain rfl : e0 = e := Template.exprT.inj (Except.ok.inj hok2)
            obtain ⟨c, hc, hsome⟩ := buildE_paths h1 hp
            refine ⟨c, hc, ?_⟩
            rw [← flattenChildren_keys h0]
            exact lookupA_isSome_mem hsome

theorem registry_boundary_witness :
    flattenG (convOf myReg) (.prim [liT] (.myLI 1 1 1)) =
      .ok (.leafT (liConv (.prim [liT] (.myLI 1 1 1)))) ∧
    ∃ c, (["lin"] : List String).head? = some c ∧
      c ∈ Children.keys (.cons "lin" (.prim [linT] (.linear 1 1)) .nil) := by
  constructor
  · exact registry_boundary.1 myReg (.prim [liT] (.myLI 1 1 1)) liConv rfl
  · exact registry_boundary.2 myReg [] "x"
      (.cons "lin" (.prim [linT] (.linear 1 1)) .nil)
      (.add (.call "lin" .arg) (.call "lin" .arg))
      (.add (.callE ["lin"] (.affine 1 1) .arg) (.callE ["lin"] (.affine 1 1) .arg))
      rfl rfl ["lin"] (by simp [pathsF])

/-! ### Payload mapping between traced and native flattenings -/

theorem lookupA_map [DecidableEq κ] (f : β → γ) (l : List (κ × β)) (k : κ) :
    lookupA (l.map (fun pr => (pr.1, f pr.2))) k = (lookupA l k).map f := by
  induction l with
  | nil => rfl
  | cons hd tl ih =>
      obtain ⟨q, v⟩ := hd
      by_cases hq : q = k
      · subst hq; simp [lookupA]
      · simp [lookupA, hq, ih]

theorem map_prependPath (g : α → β) (c : String) (e : FlatE α) :
    FlatE.map g (prependPath c e) = prependPath c (FlatE.map g e) := by
  induction e with
  | arg => rfl
  | callE p pay e ih => simp [prependPath, FlatE.map, ih]
  | add a b iha ihb => simp [prependPath, FlatE.map, iha, ihb]
  | mul a b iha ihb => simp [prependPath, FlatE.map, iha, ihb]

theorem map_substE (g : α → β) (r e : FlatE α) :
    FlatE.map g (substE r e) = substE (FlatE.map g r) (FlatE.map g e) := by
  induction e with
  | arg => rfl
  | callE p pay e ih => simp [substE, FlatE.map, ih]
  | add a b iha ihb => simp [substE, FlatE.map, iha, ihb]
  | mul a b iha ihb => simp [substE, FlatE.map, iha, ihb]

theorem buildE_map (g : α → β) (ts : List (String × Template α)) (fwd : Expr) :
    buildE (ts.map (fun pr => (pr.1, Template.map g pr.2))) fwd =
      Except.map (FlatE.map g) (buildE ts fwd) := by
  induction fwd with
  | arg => rfl
  | call c e0 ih =>
      show (do
          let e' ← buildE (ts.map (fun pr => (pr.1, Template.map g pr.2))) e0
          match lookupA (ts.map (fun pr => (pr.1, Template.map g pr.2))) c with
          | none => Except.error .missingChild
          | some (.leafT pay) => Except.ok (.callE [c] pay e')
          | some (.exprT inner) => Except.ok (substE e' (prependPath c inner))) =
        Except.map (FlatE.map g) (do
          let e' ← buildE ts e0
          match lookupA ts c with
          | none => Except.error .missingChild
          | some (.leafT pay) => Except.ok (.callE [c] pay e')
          | some (.exprT inner) => Except.ok (substE e' (prependPath c inner)))
      rw [ih, lookupA_map]
      cases hb : buildE ts e0 with
      | error err => rfl
      | ok e' =>
          cases hl : lookupA ts c with
          | none => rfl
          | some t =>
              cases t with
              | leafT pay => rfl
              | exprT inner =>
                  show Except.ok (substE (FlatE.map g e') (prependPath c (FlatE.map g inner))) =
                    Except.ok (FlatE.map g (substE e' (prependPath c inner)))
                  rw [map_substE, map_prependPath]
  | add a b iha ihb =>
      show (do
          let a' ← buildE (ts.map (fun pr => (pr.1, Template.map g pr.2))) a
          let b' ← buildE (ts.map (fun pr => (pr.1, Template.map g pr.2))) b
          Except.ok (FlatE.add a' b')) =
        Except.map (FlatE.map g) (do
          let a' ← buildE ts a
          let b' ← buildE ts b
          Except.ok (FlatE.add a' b'))
      rw [iha, ihb]
      cases buildE ts a with
      | error err => rfl
      | ok ea =>
          cases buildE ts b with
          | error err => rfl
          | ok eb => rfl
  | mul a b iha ihb =>
      show (do
          let a' ← buildE (ts.map (fun pr => (pr.1, Template.map g pr.2))) a
          let b' ← buildE (ts.map (fun pr => (pr.1, Template.map g pr.2))) b
          Except.ok (FlatE.mul a' b')) =
        Except.map (FlatE.map g) (do
          let a' ← buildE ts a
          let b' ← buildE ts b
          Except.ok (FlatE.mul a' b'))
      rw [iha, ihb]
      cases buildE ts a with
      | error err => rfl
      | ok ea =>
          cases buildE ts b with
          | error err => rfl
          | ok eb => rfl

mutual
theorem agreeM : ∀ (m : NModule), wellTypedB m = true →
    flattenG (convOf myReg) m =
      Except.map (Template.map nodeOfPrim) (flattenG nativeConv m)
  | .prim mro p, h => by
      cases p with
      | linear w b =>
          have hm : mro = [linT] := by simpa [wellTypedB] using h
          subst hm
          rfl
      | myLI tau r vleak =>
          have hm : mro = [liT] := by simpa [wellTypedB] using h
          subst hm
          rfl
  | .container mro aN ch fwd, h => by
      have h' : mro = [] ∧ wellTypedChildren ch = true := by
        simpa [wellTypedB] using h
      obtain ⟨hm, hch⟩ := h'
      subst hm
      show (do
          let ts ← flattenChildren (convOf myReg) ch
          let e ← buildE ts fwd
          Except.ok (Template.exprT e)) =
        Except.map (Template.map nodeOfPrim) (do
          let ts ← flattenChildren nativeConv ch
          let e ← buildE ts fwd
          Except.ok (Template.exprT e))
      rw [agreeC ch hch]
      cases flattenChildren nativeConv ch with
      | error err => rfl
      | ok ts =>
          show (do
              let e ← buildE (ts.map
                (fun pr => (pr.1, Template.map nodeOfPrim pr.2))) fwd
              Except.ok (Template.exprT e)) =
            Except.map (Template.map nodeOfPrim) (do
              let e ← buildE ts fwd
              Except.ok (Template.exprT e))
          rw [buildE_map]
          cases buildE ts fwd with
          | error err => rfl
          | ok e0 => rfl

theorem agreeC : ∀ (ch : Children), wellTypedChildren ch = true →
    flattenChildren (convOf myReg) ch =
      Except.map (List.map (fun pr => (pr.1, Template.map nodeOfPrim pr.2)))
        (flattenChildren nativeConv ch)
  | .nil, _ => rfl
  | .cons n c rest, h => by
      have h' : wellTypedB c = true ∧ wellTypedChildren rest = true := by
        simpa [wellTypedChildren] using h
      obtain ⟨h1, h2⟩ := h' 
      show (do
          let t ← flattenG (convOf myReg) c
          let ts ← flattenChildren (convOf myReg) rest
          Except.ok ((n, t) :: ts)) =
        Except.map (List.map (fun pr => (pr.1, Template.map nodeOfPrim pr.2))) (do
          let t ← flattenG nativeConv c
          let ts ← flattenChildren nativeConv rest
          Except.ok ((n, t) :: ts))
      rw [agreeM c h1, agreeC rest h2]
      cases flattenG nativeConv c with
      | error err => rfl
      | ok t =>
          cases flattenChildren nativeConv rest with
          | error err => rfl
          | ok ts => rfl
end

theorem assign_map (g : α → β) (e : FlatE α) (c : Counter) :
    assign c (FlatE.map g e) = (NFlatE.map g (assign c e).1, (assign c e).2) := by
  induction e generalizing c with
  | arg => rfl
  | callE p pay e ih => simp [FlatE.map, assign, NFlatE.map, ih]
  | add a b iha ihb => simp [FlatE.map, assign, NFlatE.map, iha, ihb]
  | mul a b iha ihb => simp [FlatE.map, assign, NFlatE.map, iha, ihb]

theorem namesOf_map (g : α → β) (e : NFlatE α) :
    namesOf (NFlatE.map g e) = namesOf e := by
  induction e with
  | arg => rfl
  | callN n pay e ih => simp [NFlatE.map, namesOf, ih]
  | add a b iha ihb => simp [NFlatE.map, namesOf, iha, ihb]
  | mul a b iha ihb => simp [NFlatE.map, namesOf, iha, ihb]

theorem sourcesE_map (inName : NName) (g : α → β) (e : NFlatE α) :
    sourcesE inName (NFlatE.map g e) = sourcesE inName e := by
  induction e with
  | arg => rfl
  | callN n pay e ih => simp [NFlatE.map, sourcesE]
  | add a b iha ihb => simp [NFlatE.map, sourcesE, iha, ihb]
  | mul a b iha ihb => simp [NFlatE.map, sourcesE, iha, ihb]

theorem emitEdges_map (inName : NName) (g : α → β) (e : NFlatE α) :
    emitEdges inName (NFlatE.map g e) = emitEdges inName e := by
  induction e with
  | arg => rfl
  | callN n pay e ih => simp [NFlatE.map, emitEdges, ih, sourcesE_map]
  | add a b iha ihb => simp [NFlatE.map, emitEdges, iha, ihb]
  | mul a b iha ihb => simp [NFlatE.map, emitEdges, iha, ihb]

theorem emitNodes_map (g : α → β) (e : NFlatE α) :
    emitNodes (NFlatE.map g e) = (emitNodes e).map (fun pr => (pr.1, g pr.2)) := by
  induction e with
  | arg => rfl
  | callN n pay e ih => simp [NFlatE.map, emitNodes, ih]
  | add a b iha ihb => simp [NFlatE.map, emitNodes, iha, ihb]
  | mul a b iha ihb => simp [NFlatE.map, emitNodes, iha, ihb]

theorem hasMulF_map (g : α → β) (e : FlatE α) :
    hasMulF (FlatE.map g e) = hasMulF e := by
  induction e with
  | arg => rfl
  | callE p pay e ih => simp [FlatE.map, hasMulF, ih]
  | add a b iha ihb => simp [FlatE.map, hasMulF, iha, ihb]
  | mul a b iha ihb => simp [FlatE.map, hasMulF]

theorem fneed_map (g : α → β) (e : NFlatE α) :
    fneed (NFlatE.map g e) = fneed e := by
  induction e with
  | arg => rfl
  | callN n pay e ih => simp [NFlatE.map, fneed, ih]
  | add a b iha ihb => simp [NFlatE.map, fneed, iha, ihb]
  | mul a b iha ihb => simp [NFlatE.map, fneed, iha, ihb]

/-! ### Graph evaluation matches dataflow evaluation -/

theorem hasMulN_assign (e : FlatE α) (c : Counter) :
    hasMulN (assign c e).1 = hasMulF e := by
  induction e generalizing c with
  | arg => rfl
  | callE p pay e ih => simp [assign, hasMulN, hasMulF, ih]
  | add a b iha ihb => simp [assign, hasMulN, hasMulF, iha, ihb]
  | mul a b iha ihb => simp [assign, hasMulN, hasMulF]

theorem occurs_mem_emitNodes {e : NFlatE α} {n : NName} {p : α} {a : NFlatE α}
    (h : Occurs e n p a) : (n, p) ∈ emitNodes e := by
  induction h with
  | here n p e =>
      simp only [emitNodes]
      exact List.mem_append_right _ (List.mem_singleton.mpr rfl)
  | under n' p' _ ih =>
      simp only [emitNodes]
      exact List.mem_append_left _ ih
  | left _ ih =>
      simp only [emitNodes]
      exact List.mem_append_left _ ih
  | right _ ih =>
      simp only [emitNodes]
      exact List.mem_append_right _ ih
  | mleft _ ih =>
      simp only [emitNodes]
      exact List.mem_append_left _ ih
  | mright _ ih =>
      simp only [emitNodes]
      exact List.mem_append_right _ ih

theorem occurs_name_mem {e : NFlatE α} {n : NName} {p : α} {a : NFlatE α}
    (h : Occurs e n p a) : n ∈ namesOf e := by
  have := occurs_mem_emitNodes h
  rw [← emitNodes_fst]
  exact List.mem_map.mpr ⟨(n, p), this, rfl⟩

theorem occurs_map (g : α → β) {e : NFlatE α} {n : NName} {p : α} {a : NFlatE α}
    (h : Occurs e n p a) : Occurs (NFlatE.map g e) n (g p) (NFlatE.map g a) := by
  induction h with
  | here n p e => exact .here n (g p) (NFlatE.map g e)
  | under n' p' _ ih => exact .under n' (g p') ih
  | left _ ih => exact .left ih
  | right _ ih => exact .right ih
  | mleft _ ih => exact .mleft ih
  | mright _ ih => exact .mright ih

theorem lookupA_eq_of_mem_nodup [DecidableEq κ] {l : List (κ × β)} {k : κ} {v : β}
    (hmem : (k, v) ∈ l) (hnd : (l.map Prod.fst).Nodup) : lookupA l k = some v := by
  induction l with
  | nil => simp at hmem
  | cons hd tl ih =>
      obtain ⟨q, w⟩ := hd
      rw [List.map_cons, List.nodup_cons] at hnd
      rcases List.mem_cons.mp hmem with heq | hmem'
      · obtain ⟨hq, hw⟩ := Prod.mk.inj heq
        subst hq
        subst hw
        simp [lookupA]
      · have hne : q ≠ k := by
          intro hq
          subst hq
          exact hnd.1 (List.mem_map.mpr ⟨(q, v), hmem', rfl⟩)
        simp [lookupA, hne, ih hmem' hnd.2]

theorem lookupA_append [DecidableEq κ] (l1 l2 : List (κ × β)) (k : κ) :
    lookupA (l1 ++ l2) k =
      match lookupA l1 k with
      | some v => some v
      | none => lookupA l2 k := by
  induction l1 with
  | nil => rfl
  | cons hd tl ih =>
      obtain ⟨q, w⟩ := hd
      by_cases hq : q = k
      · subst hq; simp [lookupA]
      · simp [lookupA, hq, ih]

theorem lookupA_not_mem [DecidableEq κ] {l : List (κ × β)} {k : κ}
    (h : k ∉ l.map Prod.fst) : lookupA l k = none := by
  induction l with
  | nil => rfl
  | cons hd tl ih =>
      obtain ⟨q, w⟩ := hd
      simp only [List.map_cons, List.mem_cons] at h
      push_neg at h
      have hq : q ≠ k := fun hc => h.1 hc.symm
      simp [lookupA, hq, ih h.2]

theorem fneed_le_names (e : NFlatE α) : fneed e ≤ (namesOf e).length + 1 := by
  induction e with
  | arg => simp [fneed, namesOf]
  | callN n pay e ih =>
      simp only [fneed, namesOf, List.length_append, List.length_singleton]
      omega
  | add a b iha ihb =>
      simp only [fneed, namesOf, List.length_append]
      omega
  | mul a b iha ihb =>
      simp only [fneed, namesOf, List.length_append]
      omega

theorem evalEach_append (f : NName → StateMap → Except InterpError (Value × StateMap))
    (l1 l2 : List NName) (st : StateMap) :
    evalEach f (l1 ++ l2) st = (do
      let r1 ← evalEach f l1 st
      let r2 ← evalEach f l2 r1.2
      Except.ok (r1.1 ++ r2.1, r2.2)) := by
  induction l1 generalizing st with
  | nil =>
      show evalEach f l2 st = (do
        let r2 ← evalEach f l2 st
        Except.ok (([] : List Value) ++ r2.1, r2.2))
      cases h : evalEach f l2 st with
      | error err => rfl
      | ok r => rfl
  | cons n rest ih =>
      show (do
          let r ← f n st
          let rs ← evalEach f (rest ++ l2) r.2
          Except.ok (r.1 :: rs.1, rs.2)) =
        (do
          let r1 ← (do
            let r ← f n st
            let rs ← evalEach f rest r.2
            Except.ok (r.1 :: rs.1, rs.2))
          let r2 ← evalEach f l2 r1.2
          Except.ok (r1.1 ++ r2.1, r2.2))
      cases hf : f n st with
      | error err => rfl
      | ok r =>
          show (do
              let rs ← evalEach f (rest ++ l2) r.2
              Except.ok (r.1 :: rs.1, rs.2)) =
            (do
              let r1 ← (do
                let rs ← evalEach f rest r.2
                Except.ok (r.1 :: rs.1, rs.2))
              let r2 ← evalEach f l2 r1.2
              Except.ok (r1.1 ++ r2.1, r2.2))
          rw [ih r.2]
          cases h1 : evalEach f rest r.2 with
          | error err => rfl
          | ok r1 =>
              show (do
                  let rs ← (do
                    let r2 ← evalEach f l2 r1.2
                    Except.ok (r1.1 ++ r2.1, r2.2))
                  Except.ok (r.1 :: rs.1, rs.2)) =
                (do
                  let r2 ← evalEach f l2 r1.2
                  Except.ok ((r.1 :: r1.1) ++ r2.1, r2.2))
              cases h2 : evalEach f l2 r1.2 with
              | error err => rfl
              | ok r2 => rfl

theorem emitEdges_filter (inName : NName) {e : NFlatE α} {n : NName} {p : α}
    {a : NFlatE α} (hocc : Occurs e n p a) (hnd : (namesOf e).Nodup) :
    (emitEdges inName e).filter (fun pr => pr.2 = n) =
      (sourcesE inName a).map (fun s => (s, n)) := by
  induction hocc with
  | here n' p' e' =>
      rw [namesOf, List.nodup_append] at hnd
      obtain ⟨hnde, _, hdisj⟩ := hnd
      rw [emitEdges, List.filter_append]
      have h1 : (emitEdges inName e').filter (fun pr => pr.2 = n') = [] := by
        rw [List.filter_eq_nil_iff]
        intro pr hpr
        have ht := (emitEdges_mem inName e' hpr).2
        simp only [decide_eq_true_eq]
        intro h2
        exact hdisj (h2 ▸ ht) (List.mem_singleton.mpr rfl)
      have h2 : ((sourcesE inName e').map (fun s => (s, n'))).filter
          (fun pr => pr.2 = n') = (sourcesE inName e').map (fun s => (s, n')) := by
        rw [List.filter_eq_self]
        intro pr hpr
        obtain ⟨s, _, hs⟩ := List.mem_map.mp hpr
        rw [← hs]
        simp
      rw [h1, h2, List.nil_append]
  | @under n' p' e0 nn pp aa hocc' ih =>
      rw [namesOf, List.nodup_append] at hnd
      obtain ⟨hnde, _, hdisj⟩ := hnd
      have hne : nn ≠ n' := by
        intro hc
        exact hdisj (hc ▸ occurs_name_mem hocc') (List.mem_singleton.mpr rfl)
      rw [emitEdges, List.filter_append]
      have h2 : ((sourcesE inName e0).map (fun s => (s, n'))).filter
          (fun pr => pr.2 = nn) = [] := by
        rw [List.filter_eq_nil_iff]
        intro pr hpr
        obtain ⟨s, _, hs⟩ := List.mem_map.mp hpr
        rw [← hs]
        simp only [decide_eq_true_eq]
        exact fun hc => hne hc.symm
      rw [ih hnde, h2, List.append_nil]
  | @left a0 b0 nn pp aa hocc' ih =>
      rw [namesOf, List.nodup_append] at hnd
      obtain ⟨hnda, hndb, hdisj⟩ := hnd
      rw [emitEdges, List.filter_append]
      have h2 : (emitEdges inName b0).filter (fun pr => pr.2 = nn) = [] := by
        rw [List.filter_eq_nil_iff]
        intro pr hpr
        have ht := (emitEdges_mem inName b0 hpr).2
        simp only [decide_eq_true_eq]
        intro hc
        exact hdisj (occurs_name_mem hocc') (hc ▸ ht)
      rw [ih hnda, h2, List.append_nil]
  | @right a0 b0 nn pp aa hocc' ih =>
      rw [namesOf, List.nodup_append] at hnd
      obtain ⟨hnda, hndb, hdisj⟩ := hnd
      rw [emitEdges, List.filter_append]
      have h1 : (emitEdges inName a0).filter (fun pr => pr.2 = nn) = [] := by
        rw [List.filter_eq_nil_iff]
        intro pr hpr
        have ht := (emitEdges_mem inName a0 hpr).2
        simp only [decide_eq_true_eq]
        intro hc
        exact hdisj (hc ▸ ht) (occurs_name_mem hocc')
      rw [ih hndb, h1, List.nil_append]
  | @mleft a0 b0 nn pp aa hocc' ih =>
      rw [namesOf, List.nodup_append] at hnd
      obtain ⟨hnda, hndb, hdisj⟩ := hnd
      rw [emitEdges, List.filter_append]
      have h2 : (emitEdges inName b0).filter (fun pr => pr.2 = nn) = [] := by
        rw [List.filter_eq_nil_iff]
        intro pr hpr
        have ht := (emitEdges_mem inName b0 hpr).2
        simp only [decide_eq_true_eq]
        intro hc
        exact hdisj (occurs_name_mem hocc') (hc ▸ ht)
      rw [ih hnda, h2, List.append_nil]
  | @mright a0 b0 nn pp aa hocc' ih =>
      rw [namesOf, List.nodup_append] at hnd
      obtain ⟨hnda, hndb, hdisj⟩ := hnd
      rw [emitEdges, List.filter_append]
      have h1 : (emitEdges inName a0).filter (fun pr => pr.2 = nn) = [] := by
        rw [List.filter_eq_nil_iff]
        intro pr hpr
        have ht := (emitEdges_mem inName a0 hpr).2
        simp only [decide_eq_true_eq]
        intro hc
        exact hdisj (hc ▸ ht) (occurs_name_mem hocc')
      rw [ih hndb, h1, List.nil_append]

theorem filter_outN_batch (inName : NName) (ne : NFlatE α) {n : NName}
    (hne : n ≠ NName.outN) :
    ((sourcesE inName ne).map (fun s => (s, NName.outN))).filter
      (fun pr => pr.2 = n) = [] := by
  rw [List.filter_eq_nil_iff]
  intro pr hpr
  obtain ⟨s, _, hs⟩ := List.mem_map.mp hpr
  rw [← hs]
  simp only [decide_eq_true_eq]
  exact fun hc => hne hc.symm

theorem filter_emitEdges_outN (inName : NName) (ne : NFlatE α)
    (hleaf : ∀ x ∈ namesOf ne, ∃ q k, x = NName.leafN q k) :
    (emitEdges inName ne).filter (fun pr => pr.2 = NName.outN) = [] := by
  rw [List.filter_eq_nil_iff]
  intro pr hpr
  have ht := (emitEdges_mem inName ne hpr).2
  obtain ⟨q, k, hqk⟩ := hleaf _ ht
  simp only [decide_eq_true_eq, hqk]
  exact fun hc => NName.noConfusion hc

theorem resolve_append {nmap : Node → Option Prim} :
    ∀ {l1 : List (NName × Node)} {r1 : List (NName × Prim)}
      (l2 : List (NName × Node)),
      resolve nmap l1 = .ok r1 →
      resolve nmap (l1 ++ l2) =
        Except.map (fun r2 => r1 ++ r2) (resolve nmap l2)
  | [], r1, l2, h => by
      obtain rfl : ([] : List (NName × Prim)) = r1 := Except.ok.inj h
      rw [List.nil_append]
      cases hr : resolve nmap l2 with
      | error err => rfl
      | ok r2 => rfl
  | (n, .input) :: tl, r1, l2, h => by
      show resolve nmap (tl ++ l2) = _
      exact resolve_append l2 h
  | (n, .output) :: tl, r1, l2, h => by
      show resolve nmap (tl ++ l2) = _
      exact resolve_append l2 h
  | (n, .affine w b) :: tl, r1, l2, h => by
      show (match nmap (.affine w b) with
        | none => (Except.error .unsupportedNode : Except InterpError (List (NName × Prim)))
        | some p => do
            let ps ← resolve nmap (tl ++ l2)
            Except.ok ((n, p) :: ps)) = _
      have h' : (match nmap (.affine w b) with
        | none => (Except.error .unsupportedNode : Except InterpError (List (NName × Prim)))
        | some p => do
            let ps ← resolve nmap tl
            Except.ok ((n, p) :: ps)) = Except.ok r1 := h
      cases hm : nmap (.affine w b) with
      | none =>
          rw [hm] at h'
          exact Except.noConfusion h'
      | some p =>
          rw [hm] at h'
          cases hr : resolve nmap tl with
          | error err => rw [hr] at h'; exact Except.noConfusion h'
          | ok ps =>
              rw [hr] at h'
              obtain rfl : (n, p) :: ps = r1 := Except.ok.inj h'
              rw [resolve_append l2 hr]
              cases resolve nmap l2 with
              | error err => rfl
              | ok r2 => rfl
  | (n, .li tau r vleak) :: tl, r1, l2, h => by
      show (match nmap (.li tau r vleak) with
        | none => (Except.error .unsupportedNode : Except InterpError (List (NName × Prim)))
        | some p => do
            let ps ← resolve nmap (tl ++ l2)
            Except.ok ((n, p) :: ps)) = _
      have h' : (match nmap (.li tau r vleak) with
        | none => (Except.error .unsupportedNode : Except InterpError (List (NName × Prim)))
        | some p => do
            let ps ← resolve nmap tl
            Except.ok ((n, p) :: ps)) = Except.ok r1 := h
      cases hm : nmap (.li tau r vleak) with
      | none =>
          rw [hm] at h'
          exact Except.noConfusion h'
      | some p =>
          rw [hm] at h'
          cases hr : resolve nmap tl with
          | error err => rw [hr] at h'; exact Except.noConfusion h'
          | ok ps =>
              rw [hr] at h'
              obtain rfl : (n, p) :: ps = r1 := Except.ok.inj h'
              rw [resolve_append l2 hr]
              cases resolve nmap l2 with
              | error err => rfl
              | ok r2 => rfl

theorem resolve_map_emitNodes (pe : NFlatE Prim) :
    resolve my_nir_dictionary (emitNodes (NFlatE.map nodeOfPrim pe)) =
      .ok (emitNodes pe) := by
  induction pe with
  | arg => rfl
  | callN n p e ih =>
      show resolve my_nir_dictionary
          (emitNodes (NFlatE.map nodeOfPrim e) ++ [(n, nodeOfPrim p)]) = _
      rw [resolve_append _ ih]
      cases p with
      | linear w b => rfl
      | myLI tau r vleak => rfl
  | add a b iha ihb =>
      show resolve my_nir_dictionary
          (emitNodes (NFlatE.map nodeOfPrim a) ++ emitNodes (NFlatE.map nodeOfPrim b)) = _
      rw [resolve_append _ iha, ihb]
      rfl
  | mul a b iha ihb =>
      show resolve my_nir_dictionary
          (emitNodes (NFlatE.map nodeOfPrim a) ++ emitNodes (NFlatE.map nodeOfPrim b)) = _
      rw [resolve_append _ iha, ihb]
      rfl

theorem resolve_graph (aN : String) (pe : NFlatE Prim) :
    resolve my_nir_dictionary
      ((NName.inN aN, Node.input) :: emitNodes (NFlatE.map nodeOfPrim pe) ++
        [(NName.outN, Node.output)]) = .ok (emitNodes pe) := by
  show resolve my_nir_dictionary
      (emitNodes (NFlatE.map nodeOfPrim pe) ++ [(NName.outN, Node.output)]) = _
  rw [resolve_append _ (resolve_map_emitNodes pe)]
  show Except.ok (emitNodes pe ++ ([] : List (NName × Prim))) = Except.ok (emitNodes pe)
  rw [List.append_nil]

theorem gEval_in (cm : ComposedModule) (x : Value) (fuel : Nat) (inName : NName)
    (st : StateMap) (hin : lookupA cm.graph.nodes inName = some .input) :
    gEval cm x (fuel + 1) inName st = .ok (x, st) := by
  simp [gEval, hin]

theorem gEval_out (cm : ComposedModule) (x : Value) (fuel : Nat) (st : StateMap)
    (hout : lookupA cm.graph.nodes NName.outN = some .output) :
    gEval cm x (fuel + 1) NName.outN st = (do
      let r ← evalEach (gEval cm x fuel) (preds cm.graph NName.outN) st
      Except.ok (r.1.sum, r.2)) := by
  simp [gEval, hout]

theorem gEval_step (cm : ComposedModule) (x : Value) (fuel : Nat) (n : NName)
    (st : StateMap) (p : Prim)
    (hnode : lookupA cm.graph.nodes n = some (nodeOfPrim p))
    (hprim : lookupA cm.prims n = some p) :
    gEval cm x (fuel + 1) n st = (do
      let r ← evalEach (gEval cm x fuel) (preds cm.graph n) st
      let o := primEval p r.1.sum (lookupS r.2 n)
      Except.ok (o.1, applyUpd r.2 n o.2)) := by
  cases p with
  | linear w b =>
      simp only [nodeOfPrim] at hnode
      simp [gEval, hnode, hprim]
  | myLI tau r vleak =>
      simp only [nodeOfPrim] at hnode
      simp [gEval, hnode, hprim]

theorem gEval_sources (cm : ComposedModule) (x : Value) (inName : NName)
    (hin : lookupA cm.graph.nodes inName = some .input) :
    ∀ (a : NFlatE Prim), hasMulN a = false →
      (∀ n p a', Occurs a n p a' →
        lookupA cm.graph.nodes n = some (nodeOfPrim p) ∧
        lookupA cm.prims n = some p ∧
        preds cm.graph n = sourcesE inName a') →
      ∀ (fuel : Nat) (st : StateMap), fneed a ≤ fuel →
        ∃ vals, evalEach (gEval cm x fuel) (sourcesE inName a) st =
            .ok (vals, (evalN x a st).2) ∧ vals.sum = (evalN x a st).1 := by
  intro a
  induction a with
  | arg =>
      intro _ _ fuel st hfuel
      cases fuel with
      | zero => simp [fneed] at hfuel
      | succ f =>
          refine ⟨[x], ?_, by simp [evalN]⟩
          show (do
              let r ← gEval cm x (f + 1) inName st
              let rs ← evalEach (gEval cm x (f + 1)) [] r.2
              Except.ok (r.1 :: rs.1, rs.2)) =
            Except.ok ([x], (evalN x .arg st).2)
          rw [gEval_in cm x f inName st hin]
          rfl
  | callN n p a' ih =>
      intro hmul hocc fuel st hfuel
      obtain ⟨hnode, hprim, hpreds⟩ := hocc n p a' (.here n p a')
      cases fuel with
      | zero => simp [fneed] at hfuel
      | succ f =>
          have hf' : fneed a' ≤ f := by
            simp only [fneed] at hfuel
            omega
          have hocc' : ∀ m q b, Occurs a' m q b →
              lookupA cm.graph.nodes m = some (nodeOfPrim q) ∧
              lookupA cm.prims m = some q ∧
              preds cm.graph m = sourcesE inName b :=
            fun m q b hb => hocc m q b (.under n p hb)
          have hm' : hasMulN a' = false := by simpa [hasMulN] using hmul
          obtain ⟨vals, heval, hsum⟩ := ih hm' hocc' f st hf'
          refine ⟨[(primEval p vals.sum (lookupS (evalN x a' st).2 n)).1], ?_,
            by simp only [List.sum_cons, List.sum_nil, add_zero, hsum]; rfl⟩
          show (do
              let r ← gEval cm x (f + 1) n st
              let rs ← evalEach (gEval cm x (f + 1)) [] r.2
              Except.ok (r.1 :: rs.1, rs.2)) =
            Except.ok ([(primEval p vals.sum (lookupS (evalN x a' st).2 n)).1],
              (evalN x (.callN n p a') st).2)
          rw [gEval_step cm x f n st p hnode hprim, hpreds, heval]
          show Except.ok
              ((primEval p vals.sum (lookupS (evalN x a' st).2 n)).1 ::
                ([] : List Value),
                applyUpd (evalN x a' st).2 n
                  (primEval p vals.sum (lookupS (evalN x a' st).2 n)).2) =
            Except.ok ([(primEval p vals.sum (lookupS (evalN x a' st).2 n)).1],
              (evalN x (.callN n p a') st).2)
          rw [hsum]
          rfl
  | add a b iha ihb =>
      intro hmul hocc fuel st hfuel
      have hma : hasMulN a = false ∧ hasMulN b = false := by
        simpa [hasMulN] using hmul
      have hocca : ∀ m q c, Occurs a m q c →
          lookupA cm.graph.nodes m = some (nodeOfPrim q) ∧
          lookupA cm.prims m = some q ∧
          preds cm.graph m = sourcesE inName c :=
        fun m q c hc => hocc m q c (.left hc)
      have hoccb : ∀ m q c, Occurs b m q c →
          lookupA cm.graph.nodes m = some (nodeOfPrim q) ∧
          lookupA cm.prims m = some q ∧
          preds cm.graph m = sourcesE inName c :=
        fun m q c hc => hocc m q c (.right hc)
      have hfa : fneed a ≤ fuel := le_trans (le_max_left _ _) hfuel
      have hfb : fneed b ≤ fuel := le_trans (le_max_right _ _) hfuel
      obtain ⟨va, hea, hsa⟩ := iha hma.1 hocca fuel st hfa
      obtain ⟨vb, heb, hsb⟩ := ihb hma.2 hoccb fuel (evalN x a st).2 hfb
      refine ⟨va ++ vb, ?_, ?_⟩
      · show evalEach (gEval cm x fuel)
            (sourcesE inName a ++ sourcesE inName b) st =
          Except.ok (va ++ vb, (evalN x (.add a b) st).2)
        rw [evalEach_append, hea]
        show (do
            let r2 ← evalEach (gEval cm x fuel) (sourcesE inName b) (evalN x a st).2
            Except.ok (va ++ r2.1, r2.2)) =
          Except.ok (va ++ vb, (evalN x (.add a b) st).2)
        rw [heb]
        rfl
      · rw [List.sum_append, hsa, hsb]
        rfl
  | mul a b iha ihb =>
      intro hmul hocc fuel st hfuel
      simp [hasMulN] at hmul

theorem map_fst_pair (l : List NName) (n : NName) :
    (l.map (fun s => (s, n))).map (fun pr : NName × NName => pr.1) = l := by
  induction l with
  | nil => rfl
  | cons h t ih => simp [ih]

theorem trace_graph_fwd {m : NModule} {reg : Registry} {e : FlatE Node}
    (hf : flattenG (convOf reg) m = .ok (.exprT e)) (hmul : hasMulF e = false) :
    torch_to_nir m reg = .ok (.graph
      { nodes := (NName.inN m.rootArg, .input) :: emitNodes (assign [] e).1 ++
          [(NName.outN, .output)],
        edges := emitEdges (NName.inN m.rootArg) (assign [] e).1 ++
          (sourcesE (NName.inN m.rootArg) (assign [] e).1).map
            (fun s => (s, NName.outN)) }) := by
  unfold torch_to_nir
  rw [hf]
  simp [hmul]

theorem trace_interpret_eval (m : NModule) (hm : traceableB m = true)
    (x : Value) (st : StateMap) :
    ∃ (g : Graph) (cm : ComposedModule) (v : Value) (st' : StateMap),
      torch_to_nir m myReg = .ok (.graph g) ∧
      nir_to_torch g my_nir_dictionary = .ok cm ∧
      moduleEval m x st = .ok (v, st') ∧
      cm.call x (some st) = .ok (v, st') := by
  unfold traceableB at hm
  rw [Bool.and_eq_true] at hm
  obtain ⟨hw, hmatch⟩ := hm
  cases hfn : flattenG nativeConv m with
  | error err => rw [hfn] at hmatch; exact absurd hmatch (by simp)
  | ok t =>
  cases t with
  | leafT p => rw [hfn] at hmatch; exact absurd hmatch (by simp)
  | exprT pe0 =>
  rw [hfn] at hmatch
  have hmul : hasMulF pe0 = false := by
    have h2 : (!hasMulF pe0) = true := hmatch
    simpa using h2
  have hft : flattenG (convOf myReg) m = .ok (.exprT (FlatE.map nodeOfPrim pe0)) := by
    rw [agreeM m hw, hfn]; rfl
  have hmulmap : hasMulF (FlatE.map nodeOfPrim pe0) = false := by
    rw [hasMulF_map]; exact hmul
  have htrace := trace_graph_fwd hft hmulmap
  rw [show (assign [] (FlatE.map nodeOfPrim pe0)).1 =
      NFlatE.map nodeOfPrim (assign [] pe0).1 from by rw [assign_map]] at htrace
  have hmod : moduleEval m x st = .ok (evalN x (assign [] pe0).1 st) := by
    unfold moduleEval
    rw [hfn]
  have hnodup : (namesOf (assign [] pe0).1).Nodup := namesOf_assign_nodup pe0 []
  have hleafshape : ∀ y ∈ namesOf (assign [] pe0).1, ∃ q k, y = NName.leafN q k :=
    fun y hy => namesOf_assign_leaf pe0 [] hy
  have hmulN : hasMulN (assign [] pe0).1 = false := by
    rw [hasMulN_assign]; exact hmul
  generalize hpe : (assign [] pe0).1 = pe at htrace hmod hnodup hleafshape hmulN
  have hndne : (namesOf (NFlatE.map nodeOfPrim pe)).Nodup := by
    rw [namesOf_map]; exact hnodup
  have hinL : lookupA
      ((NName.inN m.rootArg, Node.input) ::
        emitNodes (NFlatE.map nodeOfPrim pe) ++ [(NName.outN, Node.output)])
      (NName.inN m.rootArg) = some Node.input := by
    simp [lookupA]
  have hnotmemE : lookupA (emitNodes (NFlatE.map nodeOfPrim pe)) NName.outN = none := by
    apply lookupA_not_mem
    rw [emitNodes_fst, namesOf_map]
    intro hmem
    obtain ⟨q, k, hqk⟩ := hleafshape _ hmem
    exact NName.noConfusion hqk
  have houtL : lookupA
      ((NName.inN m.rootArg, Node.input) ::
        emitNodes (NFlatE.map nodeOfPrim pe) ++ [(NName.outN, Node.output)])
      NName.outN = some Node.output := by
    show (if NName.inN m.rootArg = NName.outN then some Node.input
      else lookupA (emitNodes (NFlatE.map nodeOfPrim pe) ++
        [(NName.outN, Node.output)]) NName.outN) = some Node.output
    rw [if_neg (fun hc => NName.noConfusion hc), lookupA_append, hnotmemE]
    rfl
  have hoccFacts : ∀ n p a', Occurs pe n p a' →
      lookupA ((NName.inN m.rootArg, Node.input) ::
          emitNodes (NFlatE.map nodeOfPrim pe) ++ [(NName.outN, Node.output)]) n =
        some (nodeOfPrim p) ∧
      lookupA (emitNodes pe) n = some p ∧
      ((emitEdges (NName.inN m.rootArg) (NFlatE.map nodeOfPrim pe) ++
          (sourcesE (NName.inN m.rootArg) (NFlatE.map nodeOfPrim pe)).map
            (fun s => (s, NName.outN))).filter (fun pr => pr.2 = n)).map
        (fun pr => pr.1) = sourcesE (NName.inN m.rootArg) a' := by
    intro n p a' ho
    have hname : n ∈ namesOf pe := occurs_name_mem ho
    obtain ⟨q, k, hqk⟩ := hleafshape _ hname
    have hnotin : NName.inN m.rootArg ≠ n := by
      rw [hqk]; exact fun hc => NName.noConfusion hc
    have hnotout : n ≠ NName.outN := by
      rw [hqk]; exact fun hc => NName.noConfusion hc
    have hON : Occurs (NFlatE.map nodeOfPrim pe) n (nodeOfPrim p)
        (NFlatE.map nodeOfPrim a') := occurs_map _ ho
    refine ⟨?_, ?_, ?_⟩
    · show (if NName.inN m.rootArg = n then some Node.input
        else lookupA (emitNodes (NFlatE.map nodeOfPrim pe) ++
          [(NName.outN, Node.output)]) n) = some (nodeOfPrim p)
      have hfound : lookupA (emitNodes (NFlatE.map nodeOfPrim pe)) n =
          some (nodeOfPrim p) := by
        apply lookupA_eq_of_mem_nodup (occurs_mem_emitNodes hON)
        rw [emitNodes_fst]; exact hndne
      rw [if_neg hnotin, lookupA_append, hfound]
    · exact lookupA_eq_of_mem_nodup (occurs_mem_emitNodes ho)
        (by rw [emitNodes_fst]; exact hnodup)
    · rw [List.filter_append, emitEdges_filter (NName.inN m.rootArg) hON hndne,
        filter_outN_batch _ _ hnotout, List.append_nil, sourcesE_map, map_fst_pair]
  have hlen : fneed pe ≤
      ((NName.inN m.rootArg, Node.input) ::
        emitNodes (NFlatE.map nodeOfPrim pe) ++ [(NName.outN, Node.output)]).length := by
    have h1 : (emitNodes (NFlatE.map nodeOfPrim pe)).length = (namesOf pe).length := by
      calc (emitNodes (NFlatE.map nodeOfPrim pe)).length
          = ((emitNodes (NFlatE.map nodeOfPrim pe)).map Prod.fst).length :=
            (List.length_map _ _).symm
        _ = (namesOf (NFlatE.map nodeOfPrim pe)).length := by rw [emitNodes_fst]
        _ = (namesOf pe).length := by rw [namesOf_map]
    have h2 := fneed_le_names pe
    simp only [List.length_cons, List.length_append, List.length_singleton, h1]
    omega
  refine ⟨_,
    ⟨{ nodes :=
         (NName.inN m.rootArg, Node.input) ::
           emitNodes (NFlatE.map nodeOfPrim pe) ++ [(NName.outN, Node.output)],
       edges :=
         emitEdges (NName.inN m.rootArg) (NFlatE.map nodeOfPrim pe) ++
           (sourcesE (NName.inN m.rootArg) (NFlatE.map nodeOfPrim pe)).map
             (fun s => (s, NName.outN)) },
     emitNodes pe⟩,
    (evalN x pe st).1, (evalN x pe st).2, htrace, ?_, hmod, ?_⟩
  · show (match resolve my_nir_dictionary
          ((NName.inN m.rootArg, Node.input) ::
            emitNodes (NFlatE.map nodeOfPrim pe) ++ [(NName.outN, Node.output)]) with
        | .error e => (Except.error e : Except InterpError ComposedModule)
        | .ok ps =>
            .ok ⟨{ nodes :=
                     (NName.inN m.rootArg, Node.input) ::
                       emitNodes (NFlatE.map nodeOfPrim pe) ++
                         [(NName.outN, Node.output)],
                   edges :=
                     emitEdges (NName.inN m.rootArg) (NFlatE.map nodeOfPrim pe) ++
                       (sourcesE (NName.inN m.rootArg)
                         (NFlatE.map nodeOfPrim pe)).map
                         (fun s => (s, NName.outN)) }, ps⟩) =
      .ok ⟨{ nodes :=
               (NName.inN m.rootArg, Node.input) ::
                 emitNodes (NFlatE.map nodeOfPrim pe) ++ [(NName.outN, Node.output)],
             edges :=
               emitEdges (NName.inN m.rootArg) (NFlatE.map nodeOfPrim pe) ++
                 (sourcesE (NName.inN m.rootArg) (NFlatE.map nodeOfPrim pe)).map
                   (fun s => (s, NName.outN)) }, emitNodes pe⟩
    rw [resolve_graph m.rootArg pe]
  · obtain ⟨vals, heval, hsum⟩ :=
      gEval_sources
        ⟨{ nodes :=
             (NName.inN m.rootArg, Node.input) ::
               emitNodes (NFlatE.map nodeOfPrim pe) ++ [(NName.outN, Node.output)],
           edges :=
             emitEdges (NName.inN m.rootArg) (NFlatE.map nodeOfPrim pe) ++
               (sourcesE (NName.inN m.rootArg) (NFlatE.map nodeOfPrim pe)).map
                 (fun s => (s, NName.outN)) },
         emitNodes pe⟩
        x (NName.inN m.rootArg) hinL pe hmulN
        (fun n p a' ho => hoccFacts n p a' ho)
        ((NName.inN m.rootArg, Node.input) ::
          emitNodes (NFlatE.map nodeOfPrim pe) ++ [(NName.outN, Node.output)]).length
        st hlen
    have hpredsOut :
        ((emitEdges (NName.inN m.rootArg) (NFlatE.map nodeOfPrim pe) ++
            (sourcesE (NName.inN m.rootArg) (NFlatE.map nodeOfPrim pe)).map
              (fun s => (s, NName.outN))).filter
          (fun pr => pr.2 = NName.outN)).map (fun pr => pr.1) =
        sourcesE (NName.inN m.rootArg) pe := by
      rw [List.filter_append,
        filter_emitEdges_outN _ _ (by rw [namesOf_map]; exact hleafshape),
        List.nil_append]
      have hb : ((sourcesE (NName.inN m.rootArg) (NFlatE.map nodeOfPrim pe)).map
          (fun s => (s, NName.outN))).filter (fun pr => pr.2 = NName.outN) =
          (sourcesE (NName.inN m.rootArg) (NFlatE.map nodeOfPrim pe)).map
            (fun s => (s, NName.outN)) := by
        rw [List.filter_eq_self]
        intro pr hpr
        obtain ⟨s, _, hs⟩ := List.mem_map.mp hpr
        rw [← hs]
        simp
      rw [hb, map_fst_pair, sourcesE_map]
    show gEval _ x
        (((NName.inN m.rootArg, Node.input) ::
          emitNodes (NFlatE.map nodeOfPrim pe) ++
          [(NName.outN, Node.output)]).length + 1) NName.outN st = _
    rw [gEval_out _ _ _ _ houtL]
    show (do
        let r ← evalEach
          (gEval _ x ((NName.inN m.rootArg, Node.input) ::
            emitNodes (NFlatE.map nodeOfPrim pe) ++
            [(NName.outN, Node.output)]).length)
          (((emitEdges (NName.inN m.rootArg) (NFlatE.map nodeOfPrim pe) ++
              (sourcesE (NName.inN m.rootArg) (NFlatE.map nodeOfPrim pe)).map
                (fun s => (s, NName.outN))).filter
            (fun pr : NName × NName => pr.2 = NName.outN)).map
            (fun pr : NName × NName => pr.1)) st
        Except.ok (r.1.sum, r.2)) = _
    rw [hpredsOut, heval]
    show Except.ok (vals.sum, (evalN x pe st).2) =
      Except.ok ((evalN x pe st).1, (evalN x pe st).2)
    rw [hsum]

/-- C1: for every native hierarchy built solely from leaf-registered modules
with no unsupported function calls, composing the two conversions
round-trips behaviour: tracing with the notebook registry yields a graph,
interpreting that graph with the inverse registry yields a composed module,
and the composed module computes exactly the values and updated state of the
native hierarchy for every input and incoming state — matching weights are
carried through the node parameters. -/
theorem round_trip (m : NModule) (hm : traceableB m = true)
    (x : Value) (st : StateMap) :
    ∃ (g : Graph) (cm : ComposedModule),
      torch_to_nir m myReg = .ok (.graph g) ∧
      nir_to_torch g my_nir_dictionary = .ok cm ∧
      ∃ (v : Value) (st' : StateMap),
        moduleEval m x st = .ok (v, st') ∧ cm.call x (some st) = .ok (v, st') := by
  obtain ⟨g, cm, v, st', h1, h2, h3, h4⟩ := trace_interpret_eval m hm x st
  exact ⟨g, cm, h1, h2, v, st', h3, h4⟩

theorem round_trip_witness :
    traceableB (liMod 1 1 1) = true ∧
    (∃ (g : Graph) (cm : ComposedModule),
      torch_to_nir (liMod 1 1 1) myReg = .ok (.graph g) ∧
      nir_to_torch g my_nir_dictionary = .ok cm ∧
      ∃ (v : Value) (st' : StateMap),
        moduleEval (liMod 1 1 1) 5 [] = .ok (v, st') ∧
        cm.call 5 (some []) = .ok (v, st')) :=
  ⟨by decide, round_trip (liMod 1 1 1) (by decide) 5 []⟩

/-- C6: a composed module produced by interpretation is invoked as
`call(input, state_mapping?)` and returns the pair
`(output, updated_state_mapping)`; an absent state mapping is treated as the
empty one, and the updated state is returned explicitly as a value — the
composed module itself holds no state and the caller's mapping is never
mutated, as the call is a pure function of the module, input and incoming
state. -/
theorem composed_call_contract (m : NModule) (hm : traceableB m = true)
    (x : Value) (st : StateMap) :
    ∃ (g : Graph) (cm : ComposedModule) (v : Value) (st' : StateMap),
      torch_to_nir m myReg = .ok (.graph g) ∧
      nir_to_torch g my_nir_dictionary = .ok cm ∧
      cm.call x (some st) = .ok (v, st') ∧
      cm.call x none = cm.call x (some []) := by
  obtain ⟨g, cm, v, st', h1, h2, _, h4⟩ := trace_interpret_eval m hm x st
  exact ⟨g, cm, v, st', h1, h2, h4, rfl⟩

theorem composed_call_contract_witness :
    traceableB (sharedLeaf (.linear 2 3)) = true ∧
    (∃ (g : Graph) (cm : ComposedModule) (v : Value) (st' : StateMap),
      torch_to_nir (sharedLeaf (.linear 2 3)) myReg = .ok (.graph g) ∧
      nir_to_torch g my_nir_dictionary = .ok cm ∧
      cm.call 7 (some []) = .ok (v, st') ∧
      cm.call 7 none = cm.call 7 (some [])) :=
  ⟨by decide, composed_call_contract (sharedLeaf (.linear 2 3)) (by decide) 7 []⟩
